import Mathlib

set_option linter.unusedVariables false

/-!
# Verification of the confix dotfile manager (src/confix.py)

We give a shallow embedding of the core of `confix.py`: the path codec
(`__maskHome` / `__unmaskHome` / `__getRepoFilePath`), the link-state check
(`__isLinked`), and the operations `add`, `link`, `unlink`, `rm`, `merge`,
`list` of class `Confix`.

Paths are modelled as `List Char` (a Python `str` is a sequence of
characters), so that the string-level behaviour of the source — in
particular `str.startswith`, `str.lstrip`, `str.replace` and
`posixpath.normpath` — is captured exactly.

The filesystem is modelled as a finite association list from normalized
absolute path strings to entries (regular file with opaque content,
directory, or symbolic link storing its raw target string).  The `os` /
`shutil` primitives used by the source are modelled on this map:

* symbolic links are resolved as whole paths (a chain of `symlink`
  entries, bounded by the kernel-style fuel of 40 hops), not
  component-by-component; intermediate directories are implicit;
* `os.makedirs(d, exist_ok=True)` creates the single entry `d`
  (intermediate directories being implicit in the flat map);
* `shutil.copy2(src, dst)` follows symlinks on both sides and copies the
  content; copying a directory, a missing source, or copying onto a path
  that resolves to a directory is a (non-Confix) OS error;
* `os.remove` / `os.unlink` removes a file or symlink entry and is an OS
  error on a directory or a missing path;
* `os.symlink(target, link)` is an OS error when any entry (even a broken
  symlink) is present at `link`.

The environment (`Env`) carries the data the source reads from its config
file and from the process environment: `$HOME`, the current working
directory, the configured repository root (`REPO`, which `setRepo` /
`__updateConfig` store in `os.path.normpath`-ed form), the backup
directory, the timestamp suffix `datetime.now().strftime(...)` would
produce, and the configured merge tool together with the exit code the
external tool invocation would return.  The model assumes an environment
in which `$HOME` is set; the `ConfixError("$HOME not set")` path of
`__getUserHome` (which would make every operation fail before touching the
filesystem) is outside the modelled environments.  Likewise `REPO` is
assumed configured.

Errors distinguish `ConfixError` (the single error class of the source)
from generic OS faults (`ioError`), which the source deliberately lets
propagate (spec section 7).
-/

namespace Confix

abbrev Path := List Char

/-! ## posixpath machinery (the library functions the source calls) -/

/-- Python `str.split('/')`: split on the separator, keeping empty tokens. -/
def splitSep : Path → List Path
  | [] => [[]]
  | c :: cs =>
    if c = '/' then [] :: splitSep cs
    else
      match splitSep cs with
      | t :: rest => (c :: t) :: rest
      | [] => [[c]]

/-- `'/'.join(comps)`: interleave components with the separator. -/
def joinS : List Path → Path
  | [] => []
  | [c] => c
  | c :: cs => c ++ '/' :: joinS cs

/-- The component-processing loop of `posixpath.normpath`: drop `''` and
`'.'`, resolve `'..'` against the accumulated components (`acc` holds the
accumulated components in reverse). -/
def procComps (abs : Bool) : List Path → List Path → List Path
  | acc, [] => acc.reverse
  | acc, comp :: rest =>
    if comp = [] ∨ comp = ['.'] then procComps abs acc rest
    else if comp ≠ ['.', '.'] ∨ (¬ abs ∧ acc = []) ∨ acc.head? = some ['.', '.'] then
      procComps abs (comp :: acc) rest
    else
      match acc with
      | _ :: acc₂ => procComps abs acc₂ rest
      | [] => procComps abs acc rest

/-- `posixpath.normpath`, faithfully: empty path is `'.'`, one or two (but
not three) leading slashes are preserved, `''`/`'.'` components dropped,
`'..'` resolved. -/
def normpath (p : Path) : Path :=
  if p = [] then ['.']
  else
    let slashes : Nat :=
      if ['/', '/'].isPrefixOf p ∧ ¬ ['/', '/', '/'].isPrefixOf p then 2
      else if ['/'].isPrefixOf p then 1 else 0
    let comps := procComps (slashes ≠ 0) [] (splitSep p)
    let out := List.replicate slashes '/' ++ joinS comps
    if out = [] then ['.'] else out

/-- `posixpath.join(a, b)` for two arguments. -/
def pjoin (a b : Path) : Path :=
  if b.head? = some '/' then b
  else if a = [] ∨ a.getLast? = some '/' then a ++ b
  else a ++ '/' :: b

/-- `str.lstrip(os.path.sep)`: drop every leading separator. -/
def lstripSep (p : Path) : Path := p.dropWhile (fun c => c = '/')

/-- `posixpath.dirname`. -/
def dirname (p : Path) : Path :=
  let head := (p.reverse.dropWhile (fun c => c ≠ '/')).reverse
  if head ≠ [] ∧ head.any (fun c => c ≠ '/') then
    (head.reverse.dropWhile (fun c => c = '/')).reverse
  else head

/-- Python `str.replace(pat, rep)` for a non-empty pattern: replace
non-overlapping occurrences left to right, never rescanning the
replacement text.  Processed one character at a time (structurally);
`skip` counts input characters still owed to an occurrence already
replaced.  (The source only ever calls this with the pattern `"/$HOME"`;
an empty pattern is returned unchanged.) -/
def repAux (pat rep : Path) : Nat → Path → Path
  | _, [] => []
  | n + 1, _ :: cs => repAux pat rep n cs
  | 0, c :: cs =>
    if pat.isPrefixOf (c :: cs) then
      rep ++ repAux pat rep (pat.length - 1) cs
    else
      c :: repAux pat rep 0 cs

def replaceAll (pat rep l : Path) : Path :=
  if pat = [] then l else repAux pat rep 0 l

/-- The characters of the placeholder component `$HOME`. -/
def homeComp : Path := '$' :: 'H' :: 'O' :: 'M' :: 'E' :: []

/-- The literal placeholder `"/$HOME"` used by `__maskHome`/`__unmaskHome`. -/
def homePat : Path := '/' :: homeComp

/-- `"/$HOME/"`, the string prepended by `__maskHome`. -/
def homePatSlash : Path := homePat ++ ['/']

/-! ## Filesystem model -/

/-- A filesystem entry: regular file (opaque content), directory, or
symbolic link (storing the raw target string, as the link table does). -/
inductive Entry where
  | file (content : String)
  | dir
  | symlink (target : Path)
deriving DecidableEq, Repr

/-- The filesystem: a finite map (association list, first binding wins)
from normalized absolute path strings to entries. -/
abbrev FS := List (Path × Entry)

def fsGet (fs : FS) (k : Path) : Option Entry :=
  match fs.find? (fun pe => pe.1 == k) with
  | some pe => some pe.2
  | none => none

def fsSet (fs : FS) (k : Path) (e : Entry) : FS :=
  (k, e) :: fs.filter (fun pe => !(pe.1 == k))

def fsDel (fs : FS) (k : Path) : FS :=
  fs.filter (fun pe => !(pe.1 == k))

/-- The environment of one `Confix` invocation: the process environment
and the values `__updateConfig` loaded.  `repoDir` is stored
`normpath`-ed (line 43), `mergeTool = []` means unset (falsy in the
source), `mergeExit` is the exit code the external merge tool returns. -/
structure Env where
  home : Path
  cwd : Path
  repoDir : Path
  backupDir : Path
  ts : Path
  mergeTool : Path
  mergeExit : Int
deriving DecidableEq, Repr

/-- `os.environ['HOME']` followed by `os.path.normpath` (`__getUserHome`,
lines 106-110); the modelled environments have `$HOME` set. -/
def getUserHome (env : Env) : Path := normpath env.home

/-- `os.path.abspath`: absolute paths are `normpath`-ed, relative ones are
joined to the current working directory first. -/
def abspathP (env : Env) (p : Path) : Path :=
  if p.head? = some '/' then normpath p else normpath (pjoin env.cwd p)

/-- Symlink-resolution fuel (the kernel-style bound on chained links). -/
def fuel : Nat := 40

/-- Resolve the target string stored in a symlink entry at `k`: absolute
targets stand alone, relative ones are joined to the link's directory. -/
def linkTarget (k t : Path) : Path :=
  if t.head? = some '/' then normpath t else normpath (pjoin (dirname k) t)

/-- Follow the chain of symlink entries from an absolute key, returning
the entry the chain ends at (`none` for a missing entry or a cycle).
This backs `os.path.exists` / `os.path.isfile`. -/
def resolveEntry (fs : FS) : Nat → Path → Option Entry
  | 0, _ => none
  | n + 1, k =>
    match fsGet fs k with
    | some (.symlink t) => resolveEntry fs n (linkTarget k t)
    | e => e

/-- Follow the chain of symlink entries from an absolute key, returning
the final path (`os.path.realpath`, non-strict: a missing entry resolves
to itself; on a cycle the fuel runs out and the current path is
returned). -/
def realpathAux (fs : FS) : Nat → Path → Path
  | 0, k => k
  | n + 1, k =>
    match fsGet fs k with
    | some (.symlink t) => realpathAux fs n (linkTarget k t)
    | _ => k

/-- `os.path.islink`. -/
def islink (env : Env) (fs : FS) (p : Path) : Bool :=
  match fsGet fs (abspathP env p) with
  | some (.symlink _) => true
  | _ => false

/-- `os.path.exists` (follows symlinks; false on a broken link). -/
def pexists (env : Env) (fs : FS) (p : Path) : Bool :=
  (resolveEntry fs fuel (abspathP env p)).isSome

/-- `os.path.isfile` (follows symlinks). -/
def isfile (env : Env) (fs : FS) (p : Path) : Bool :=
  match resolveEntry fs fuel (abspathP env p) with
  | some (.file _) => true
  | _ => false

/-- `os.path.realpath`. -/
def realpath (env : Env) (fs : FS) (p : Path) : Path :=
  realpathAux fs fuel (abspathP env p)

/-! ## Error model and OS mutation primitives -/

/-- `ConfixError` (the source's single error class) versus a generic OS
fault, which the source lets propagate (spec section 7). -/
inductive CErr where
  | confixError (msg : String)
  | ioError (msg : String)
deriving DecidableEq, Repr

/-- `os.remove` / `os.unlink`: removes the entry itself (a symlink is not
followed); OS error on a directory or a missing entry. -/
def osRemove (env : Env) (fs : FS) (p : Path) : Except CErr FS :=
  match fsGet fs (abspathP env p) with
  | some .dir => .error (.ioError "IsADirectoryError")
  | some _ => .ok (fsDel fs (abspathP env p))
  | none => .error (.ioError "FileNotFoundError")

/-- `os.symlink(target, link)`: OS error if any entry (even a broken
symlink) is already present at `link`. -/
def osSymlink (env : Env) (fs : FS) (target p : Path) : Except CErr FS :=
  match fsGet fs (abspathP env p) with
  | some _ => .error (.ioError "FileExistsError")
  | none => .ok (fsSet fs (abspathP env p) (.symlink target))

/-- `shutil.copy2(src, dst)`: follows symlinks on both sides, copies
content (and metadata, which the model does not track); OS error on a
missing or directory source, or a destination resolving to a directory. -/
def copy2 (env : Env) (fs : FS) (src dst : Path) : Except CErr FS :=
  match resolveEntry fs fuel (abspathP env src) with
  | some (.file c) =>
    let d := realpathAux fs fuel (abspathP env dst)
    match fsGet fs d with
    | some .dir => .error (.ioError "IsADirectoryError")
    | _ => .ok (fsSet fs d (.file c))
  | some .dir => .error (.ioError "IsADirectoryError")
  | _ => .error (.ioError "FileNotFoundError")

/-- `os.makedirs(d, exist_ok=True)`: in the flat map only the entry `d`
itself is materialized (intermediate directories are implicit); OS error
when a non-directory entry occupies `d`. -/
def makedirs (env : Env) (fs : FS) (p : Path) : Except CErr FS :=
  match fsGet fs (abspathP env p) with
  | some .dir => .ok fs
  | some _ => .error (.ioError "FileExistsError")
  | none => .ok (fsSet fs (abspathP env p) .dir)

/-! ## The path codec (`__maskHome`, `__unmaskHome`, `__getRepoFilePath`) -/

/-- `__maskHome` (lines 112-116): if the path string starts with the
(normalized) home directory string, replace that prefix with
`"/$HOME/"`; then `normpath`.  Note the raw `str.startswith`: no check
that the prefix ends at a path-component boundary. -/
def maskHome (env : Env) (p : Path) : Path :=
  let h := getUserHome env
  normpath (if h.isPrefixOf p then homePatSlash ++ p.drop h.length else p)

/-- `__unmaskHome` (lines 118-119): `str.replace` every occurrence of
`"/$HOME"` by the home directory, then `normpath`. -/
def unmaskHome (env : Env) (p : Path) : Path :=
  normpath (replaceAll homePat (getUserHome env) p)

/-- `__getRepoFilePath` (lines 59-61): mask the absolute form of the path
and join it, stripped of leading separators, under the repository root. -/
def getRepoFilePath (env : Env) (p : Path) : Path :=
  pjoin env.repoDir (lstripSep (maskHome env (abspathP env p)))

/-- `__existsInRepo` (lines 63-65): `os.path.exists` of the repo path. -/
def existsInRepo (env : Env) (fs : FS) (p : Path) : Bool :=
  pexists env fs (getRepoFilePath env p)

/-- `__isLinked` (lines 67-76): unmask the placeholder first, then check
link-ness, the resolved target, and existence (not file-ness!) of the
repository path. -/
def isLinked (env : Env) (fs : FS) (p : Path) : Bool :=
  let q := unmaskHome env p
  if ¬ islink env fs q then false
  else if realpath env fs q ≠ getRepoFilePath env q then false
  else if ¬ existsInRepo env fs q then false
  else true

/-- The backup path `__backupFile` (lines 78-86) writes to (with
`withTimestamp=True`, as `link` always passes):
`normpath(backupDir + '/' + abspath(filePath) + '.' + suffix)`. -/
def backupFilePath (env : Env) (p : Path) : Path :=
  normpath (env.backupDir ++ '/' :: abspathP env p ++ '.' :: env.ts)

/-- `__backupFile` (lines 78-86): create the backup directory chain, then
`copy2` the file to the timestamped backup path.  Returns the (possibly
partially mutated) filesystem together with the outcome. -/
def backupFile (env : Env) (fs : FS) (p : Path) : FS × Except CErr Unit :=
  match makedirs env fs (dirname (backupFilePath env p)) with
  | .error e => (fs, .error e)
  | .ok fs₁ =>
    match copy2 env fs₁ p (backupFilePath env p) with
    | .error e => (fs₁, .error e)
    | .ok fs₂ => (fs₂, .ok ())

/-! ## Operations -/

/-- Observable steps of an operation, used to state ordering properties
(backup before removal before link creation). -/
inductive Ev where
  | copied (src dst : Path)
  | backedUp (p : Path)
  | removed (p : Path)
  | linked (target p : Path)
deriving DecidableEq, Repr

deriving instance DecidableEq for Except

/-- Outcome of an operation: the final filesystem (also on failure — the
source performs no rollback), the trace of completed mutation steps, and
the returned value or raised error. -/
structure OpResult (α : Type) where
  fs : FS
  tr : List Ev
  res : Except CErr α
deriving DecidableEq, Repr

/-- `Confix.link` (lines 173-192). -/
def link (env : Env) (fs : FS) (filePath₀ : Path) (force : Bool) : OpResult Bool :=
  let filePath := abspathP env filePath₀
  let repoFile := getRepoFilePath env filePath
  if isLinked env fs filePath then ⟨fs, [], .ok true⟩
  else if ¬ existsInRepo env fs filePath then
    ⟨fs, [], .error (.confixError ("don" ++ String.singleton (Char.ofNat 39) ++ "t know " ++ String.mk filePath))⟩
  else if pexists env fs filePath then
    if force then
      match backupFile env fs filePath with
      | (fs₁, .error e) => ⟨fs₁, [], .error e⟩
      | (fs₁, .ok ()) =>
        match osRemove env fs₁ filePath with
        | .error e => ⟨fs₁, [.backedUp filePath], .error e⟩
        | .ok fs₂ =>
          match osSymlink env fs₂ repoFile filePath with
          | .error e => ⟨fs₂, [.backedUp filePath, .removed filePath], .error e⟩
          | .ok fs₃ =>
            ⟨fs₃, [.backedUp filePath, .removed filePath, .linked repoFile filePath], .ok true⟩
    else
      ⟨fs, [], .error (.confixError (String.mk filePath ++ " already exists (you might want to use --force)"))⟩
  else
    match osSymlink env fs repoFile filePath with
    | .error e => ⟨fs, [], .error e⟩
    | .ok fs₁ => ⟨fs₁, [.linked repoFile filePath], .ok true⟩

/-- `Confix.add` (lines 138-161). -/
def add (env : Env) (fs : FS) (filePath : Path) (force : Bool) : OpResult Bool :=
  let repoFile := getRepoFilePath env filePath
  if isLinked env fs filePath then ⟨fs, [], .ok true⟩
  else if ¬ pexists env fs filePath then
    ⟨fs, [], .error (.confixError (String.mk filePath ++ " does not exist"))⟩
  else if ¬ isfile env fs filePath then
    ⟨fs, [], .error (.confixError (String.mk filePath ++ " is not a file"))⟩
  else if pexists env fs repoFile ∧ ¬ force then
    ⟨fs, [], .error (.confixError ("a different version of " ++ String.mk filePath ++ " already exists in repo (you might want to use --merge or --force)"))⟩
  else if islink env fs filePath ∧ ¬ force then
    ⟨fs, [], .error (.confixError (String.mk filePath ++ " is a symlink"))⟩
  else
    match makedirs env fs (dirname repoFile) with
    | .error e => ⟨fs, [], .error e⟩
    | .ok fs₁ =>
      match copy2 env fs₁ filePath repoFile with
      | .error e => ⟨fs₁, [], .error e⟩
      | .ok fs₂ =>
        let r := link env fs₂ filePath true
        ⟨r.fs, .copied filePath repoFile :: r.tr,
          match r.res with | .ok _ => .ok true | .error e => .error e⟩

/-- `Confix.rm` (lines 163-171). -/
def rm (env : Env) (fs : FS) (filePath : Path) : OpResult Unit :=
  if isLinked env fs filePath then
    ⟨fs, [], .error (.confixError (String.mk filePath ++ " is still linked"))⟩
  else if ¬ existsInRepo env fs filePath then
    ⟨fs, [], .error (.confixError (String.mk filePath ++ " does not exist in confix repo"))⟩
  else
    match osRemove env fs (getRepoFilePath env filePath) with
    | .error e => ⟨fs, [], .error e⟩
    | .ok fs₁ => ⟨fs₁, [.removed (getRepoFilePath env filePath)], .ok ()⟩

/-- `Confix.unlink` (lines 194-202). -/
def unlink (env : Env) (fs : FS) (symlinkArg : Path) : OpResult Unit :=
  if ¬ isLinked env fs symlinkArg then
    ⟨fs, [], .error (.confixError (String.mk symlinkArg ++ " is not linked"))⟩
  else
    match osRemove env fs symlinkArg with
    | .error e => ⟨fs, [], .error e⟩
    | .ok fs₁ =>
      match copy2 env fs₁ (getRepoFilePath env symlinkArg) symlinkArg with
      | .error e => ⟨fs₁, [.removed symlinkArg], .error e⟩
      | .ok fs₂ =>
        ⟨fs₂, [.removed symlinkArg, .copied (getRepoFilePath env symlinkArg) symlinkArg], .ok ()⟩

/-- `Confix.merge` (lines 130-136) plus `__merge` (lines 98-104): the
external tool invocation is modelled by the environment-supplied exit
code `env.mergeExit`; it never touches the filesystem model. -/
def merge (env : Env) (fs : FS) (filePath : Path) : OpResult Unit :=
  if ¬ pexists env fs filePath then
    ⟨fs, [], .error (.confixError (String.mk filePath ++ " does not exist"))⟩
  else if ¬ pexists env fs (getRepoFilePath env filePath) then
    ⟨fs, [], .error (.confixError (String.mk filePath ++ " does not exist in confix repo"))⟩
  else if env.mergeTool = [] then
    ⟨fs, [], .error (.confixError "you have to specify a MERGE_TOOL")⟩
  else if ¬ pexists env fs env.mergeTool then
    ⟨fs, [], .error (.confixError "MERGE_TOOL does not exist")⟩
  else if env.mergeExit ≠ 0 then
    ⟨fs, [], .error (.confixError "MERGE_TOOL returned an error")⟩
  else ⟨fs, [], .ok ()⟩

/-- The regular files `os.walk(repoDir)` enumerates: every file entry
whose key lies strictly under the repository root. -/
def walkFiles (env : Env) (fs : FS) : List Path :=
  fs.filterMap (fun pe =>
    match pe.2 with
    | .file _ => if (env.repoDir ++ ['/']).isPrefixOf pe.1 then some pe.1 else none
    | _ => none)

/-- `Confix.list` (lines 209-216): for each file in the repository walk,
strip the `len(repoDir)` prefix from the full path (the placeholder is
NOT substituted back) and pair it with `__isLinked` of that string. -/
def listFiles (env : Env) (fs : FS) : List (Path × Bool) :=
  (walkFiles env fs).map (fun k =>
    (k.drop env.repoDir.length, isLinked env fs (k.drop env.repoDir.length)))

/-- The decoding direction of the path codec, as the source performs it:
`list` strips `len(repoDir)` characters (line 214) and `__isLinked`
substitutes the placeholder back via `__unmaskHome` (line 69). -/
def fromRepoPath (env : Env) (rp : Path) : Path :=
  unmaskHome env (rp.drop env.repoDir.length)

/-- The encoding direction: a tracked path's location in the repository
(`__getRepoFilePath`). -/
def toRepoPath (env : Env) (p : Path) : Path :=
  getRepoFilePath env p

/-! ## Well-formedness predicates used in the theorems -/

/-- `p` is a normalized absolute path string with a single leading
separator (`normpath` is the identity on it, it starts with `'/'` and not
with the POSIX-special `"//"`). -/
def normAbs (p : Path) : Bool :=
  (normpath p == p) && (p.head? == some '/') && !(['/', '/'].isPrefixOf p)

/-- Substring occurrence test (Python `pat in l`), by the same left-to-right
scan as `replaceAll`. -/
def hasSub (pat : Path) : Path → Bool
  | [] => pat.isPrefixOf []
  | c :: cs => pat.isPrefixOf (c :: cs) || hasSub pat cs

/-- `p` does not contain the literal placeholder `"/$HOME"`. -/
def noTok (p : Path) : Bool := !(hasSub homePat p)

/-- A well-behaved operation argument: normalized absolute, free of the
placeholder, and if the home directory is a string prefix of `p` then the
prefix ends at a component boundary. -/
def goodPath (env : Env) (p : Path) : Bool :=
  normAbs p && noTok p &&
  (!((getUserHome env).isPrefixOf p) || p == getUserHome env ||
    (getUserHome env ++ ['/']).isPrefixOf p)

/-- A well-formed environment: home, repository root and backup root are
normalized absolute directories distinct from the filesystem root. -/
def envWF (env : Env) : Bool :=
  normAbs env.home && env.home ≠ ['/'] &&
  normAbs env.repoDir && env.repoDir ≠ ['/'] &&
  normAbs env.backupDir && env.backupDir ≠ ['/']

/-! ## Basic lemmas: the finite map -/

theorem fsGet_fsSet_self (fs : FS) (k : Path) (e : Entry) :
    fsGet (fsSet fs k e) k = some e := by
  simp [fsGet, fsSet, List.find?]

theorem fsGet_filter_ne (fs : FS) (k k' : Path) (h : k' ≠ k) :
    fsGet (fs.filter (fun pe => !(pe.1 == k))) k' = fsGet fs k' := by
  induction fs with
  | nil => rfl
  | cons pe fs ih =>
    rw [List.filter_cons]
    by_cases h1 : pe.1 = k
    · rw [if_neg (by simp [h1])]
      rw [ih]
      have h2 : (pe.1 == k') = false := by
        rw [h1]; simp; exact fun hk => (h hk.symm).elim
      simp [fsGet, List.find?, h2]
    · rw [if_pos (by simp [h1])]
      by_cases h2 : pe.1 = k'
      · simp [fsGet, List.find?, h2]
      · have h2f : (pe.1 == k') = false := by simp [h2]
        simp only [fsGet, List.find?, h2f]
        exact ih

theorem fsGet_fsSet_ne (fs : FS) (k k' : Path) (e : Entry) (h : k' ≠ k) :
    fsGet (fsSet fs k e) k' = fsGet fs k' := by
  have hne : (k == k') = false := by
    simp; exact fun hk => (h hk.symm).elim
  simp only [fsSet, fsGet, List.find?, hne]
  exact fsGet_filter_ne fs k k' h

theorem fsGet_fsDel_self (fs : FS) (k : Path) :
    fsGet (fsDel fs k) k = none := by
  induction fs with
  | nil => rfl
  | cons pe fs ih =>
    simp only [fsDel, List.filter_cons] at *
    by_cases h1 : pe.1 = k
    · rw [if_neg (by simp [h1])]
      exact ih
    · rw [if_pos (by simp [h1])]
      have h1f : (pe.1 == k) = false := by simp [h1]
      simp only [fsGet, List.find?, h1f]
      exact ih

theorem fsGet_fsDel_ne (fs : FS) (k k' : Path) (h : k' ≠ k) :
    fsGet (fsDel fs k) k' = fsGet fs k' := fsGet_filter_ne fs k k' h

/-! ## Basic lemmas: symlink resolution -/

theorem fsGet_isSome_of_resolveEntry (fs : FS) (n : Nat) (k : Path) (e : Entry)
    (h : resolveEntry fs n k = some e) : (fsGet fs k).isSome := by
  cases n with
  | zero => simp [resolveEntry] at h
  | succ n =>
    simp only [resolveEntry] at h
    cases hg : fsGet fs k with
    | none => rw [hg] at h; exact absurd h (by simp)
    | some e' => simp

theorem realpathAux_get_of_resolveEntry (fs : FS) (n : Nat) (k : Path) (e : Entry)
    (h : resolveEntry fs n k = some e) :
    fsGet fs (realpathAux fs n k) = some e ∧ (∀ t, e ≠ .symlink t) := by
  induction n generalizing k with
  | zero => simp [resolveEntry] at h
  | succ n ih =>
    simp only [resolveEntry] at h
    cases hg : fsGet fs k with
    | none => rw [hg] at h; exact absurd h (by simp)
    | some e' =>
      rw [hg] at h
      cases e' with
      | symlink t =>
        simp only at h
        simpa [realpathAux, hg] using ih (linkTarget k t) h
      | file c =>
        simp only at h
        cases h
        simp [realpathAux, hg]
      | dir =>
        simp only at h
        cases h
        simp [realpathAux, hg]

/-! ## Basic lemmas: the codec on well-behaved paths -/

theorem abspathP_eq_self (env : Env) (p : Path)
    (hn : normpath p = p) (hh : p.head? = some '/') : abspathP env p = p := by
  simp [abspathP, hh, hn]

theorem repAux_of_not_hasSub (pat rep : Path) (l : Path)
    (h : hasSub pat l = false) : repAux pat rep 0 l = l := by
  induction l with
  | nil => rfl
  | cons c cs ih =>
    simp only [hasSub, Bool.or_eq_false_iff] at h
    simp only [repAux]
    rw [if_neg (by simp [h.1]), ih h.2]

theorem replaceAll_of_not_hasSub (pat rep : Path) (l : Path)
    (h : hasSub pat l = false) : replaceAll pat rep l = l := by
  unfold replaceAll
  split
  · rfl
  · exact repAux_of_not_hasSub pat rep l h

theorem unmaskHome_eq_self (env : Env) (p : Path)
    (hn : normpath p = p) (ht : noTok p = true) : unmaskHome env p = p := by
  have hs : hasSub homePat p = false := by
    simpa [noTok] using ht
  simp [unmaskHome, replaceAll_of_not_hasSub _ _ _ hs, hn]


/-! ## Further resolution lemmas -/

theorem resolveEntry_of_get_none (fs : FS) (k : Path) (hg : fsGet fs k = none) :
    ∀ n, resolveEntry fs n k = none
  | 0 => rfl
  | n + 1 => by simp [resolveEntry, hg]

theorem pexists_false_of_get_none (env : Env) (fs : FS) (p : Path)
    (hg : fsGet fs (abspathP env p) = none) : pexists env fs p = false := by
  simp [pexists, resolveEntry_of_get_none _ _ hg fuel]

theorem islink_false_of_get_none (env : Env) (fs : FS) (p : Path)
    (hg : fsGet fs (abspathP env p) = none) : islink env fs p = false := by
  simp [islink, hg]

/-! ## Concrete scenarios used by witnesses and counterexamples -/

def pstr (s : String) : Path := s.toList

/-- A standard environment: home `/home/u`, repository `/r`. -/
def envH : Env := ⟨pstr "/home/u", pstr "/", pstr "/r", pstr "/b", pstr "2020", pstr "", 0⟩

/-- `/a` correctly linked into the repository. -/
def fsLinked : FS := [(pstr "/a", .symlink (pstr "/r/a")), (pstr "/r/a", .file "c")]

/-- Only the repository copy of `/a` exists; `/a` itself is absent. -/
def fsRepoOnly : FS := [(pstr "/r/a", .file "c")]

/-- `/a` is a symlink to its repo path, but a directory sits there. -/
def fsRepoDirAt : FS := [(pstr "/a", .symlink (pstr "/r/a")), (pstr "/r/a", .dir)]

/-- A directory sits at the repository path of `/a`; `/a` is absent. -/
def fsRepoDirOnly : FS := [(pstr "/r/a", .dir)]

/-- A pathological but reachable configuration: the repository root is the
filesystem root (`setRepo "/"`), home is `/h`. -/
def envRoot : Env := ⟨pstr "/h", pstr "/", pstr "/", pstr "/b", pstr "2020", pstr "", 0⟩

/-- Under `envRoot`: `/h/x` is linked (its repo path is `/$HOME/x`), and
the entry at `/$HOME/x` is the repository copy. -/
def fsMasked : FS := [(pstr "/h/x", .symlink (pstr "/$HOME/x")), (pstr "/$HOME/x", .file "c")]

/-- Under `envH`: the home file `/home/u/x` is tracked; its repository
copy lives at the masked path `/r/$HOME/x`. -/
def fsRepoHome : FS := [(pstr "/r/$HOME/x", .file "c"), (pstr "/home/u/x", .symlink (pstr "/r/$HOME/x"))]


/-! ## Canonical absolute paths

A normalized absolute path (with a single leading separator) is exactly
`'/' :: joinS comps` for a nonempty list of clean components.  The
following lemmas establish this normal form and how the source's string
operations act on it. -/

/-- A clean path component: nonempty, separator-free, not `.` or `..`. -/
def CleanComps (l : List Path) : Prop :=
  ∀ c ∈ l, c ≠ [] ∧ c ≠ ['.'] ∧ c ≠ ['.', '.'] ∧ '/' ∉ c

theorem cleanComps_append {a b : List Path} (ha : CleanComps a) (hb : CleanComps b) :
    CleanComps (a ++ b) := by
  intro c hc
  rcases List.mem_append.mp hc with h | h
  · exact ha c h
  · exact hb c h

theorem cleanComps_of_append_left {a b : List Path} (h : CleanComps (a ++ b)) :
    CleanComps a := fun c hc => h c (List.mem_append.mpr (Or.inl hc))

theorem cleanComps_of_append_right {a b : List Path} (h : CleanComps (a ++ b)) :
    CleanComps b := fun c hc => h c (List.mem_append.mpr (Or.inr hc))

theorem splitSep_ne_nil (l : Path) : splitSep l ≠ [] := by
  induction l with
  | nil => simp [splitSep]
  | cons c cs ih =>
    simp only [splitSep]
    split
    · simp
    · cases h : splitSep cs with
      | nil => exact absurd h ih
      | cons t rest => simp

theorem splitSep_no_slash (x : Path) (hx : '/' ∉ x) : splitSep x = [x] := by
  induction x with
  | nil => rfl
  | cons c cs ih =>
    have hc : c ≠ '/' := fun h => hx (h ▸ List.mem_cons_self c cs)
    have hcs : '/' ∉ cs := fun h => hx (List.mem_cons_of_mem c h)
    simp only [splitSep]
    rw [if_neg hc, ih hcs]

theorem splitSep_no_slash_append (x : Path) (hx : '/' ∉ x) (t : Path) :
    splitSep (x ++ '/' :: t) = x :: splitSep t := by
  induction x with
  | nil => simp [splitSep]
  | cons c cs ih =>
    have hc : c ≠ '/' := fun h => hx (h ▸ List.mem_cons_self c cs)
    have hcs : '/' ∉ cs := fun h => hx (List.mem_cons_of_mem c h)
    simp only [List.cons_append, splitSep]
    rw [if_neg hc]
    rw [show cs.append ('/' :: t) = cs ++ '/' :: t from rfl, ih hcs]

theorem splitSep_joinS (comps : List Path) (hne : comps ≠ [])
    (hs : ∀ c ∈ comps, '/' ∉ c) : splitSep (joinS comps) = comps := by
  induction comps with
  | nil => exact absurd rfl hne
  | cons c cs ih =>
    cases cs with
    | nil =>
      simp only [joinS]
      exact splitSep_no_slash c (hs c (List.mem_cons_self c []))
    | cons d ds =>
      have h1 : joinS (c :: d :: ds) = c ++ '/' :: joinS (d :: ds) := rfl
      rw [h1, splitSep_no_slash_append c (hs c (List.mem_cons_self c _))]
      rw [ih (by simp) (fun x hx => hs x (List.mem_cons_of_mem c hx))]

theorem joinS_append (a b : List Path) (ha : a ≠ []) (hb : b ≠ []) :
    joinS (a ++ b) = joinS a ++ '/' :: joinS b := by
  induction a with
  | nil => exact absurd rfl ha
  | cons c cs ih =>
    cases cs with
    | nil =>
      cases b with
      | nil => exact absurd rfl hb
      | cons d ds => rfl
    | cons d ds =>
      have h1 : joinS ((c :: d :: ds) ++ b) = c ++ '/' :: joinS ((d :: ds) ++ b) := rfl
      rw [h1, ih (by simp)]
      rw [show joinS (c :: d :: ds) = c ++ '/' :: joinS (d :: ds) from rfl]
      simp

theorem joinS_head (comps : List Path) (a : Char) (t : Path)
    (h : comps.head? = some (a :: t)) : ∃ y, joinS comps = a :: y := by
  cases comps with
  | nil => simp at h
  | cons c cs =>
    simp only [List.head?_cons, Option.some_inj] at h
    cases cs with
    | nil => exact ⟨t, by rw [joinS, h]⟩
    | cons d ds => exact ⟨t ++ '/' :: joinS (d :: ds), by rw [show joinS (c :: d :: ds) = c ++ '/' :: joinS (d :: ds) from rfl, h]; rfl⟩

theorem joinS_getLast_ne_slash (comps : List Path) (hne : comps ≠ [])
    (hc : CleanComps comps) : (joinS comps).getLast? ≠ some '/' := by
  induction comps with
  | nil => exact absurd rfl hne
  | cons c cs ih =>
    cases cs with
    | nil =>
      simp only [joinS]
      intro h
      have hm : '/' ∈ c := List.mem_of_mem_getLast? (by rw [h]; simp)
      exact (hc c (List.mem_cons_self c [])).2.2.2 hm
    | cons d ds =>
      have h1 : joinS (c :: d :: ds) = c ++ '/' :: joinS (d :: ds) := rfl
      rw [h1]
      have h2 : ('/' :: joinS (d :: ds)).getLast? = (joinS (d :: ds)).getLast? ∨
          ('/' :: joinS (d :: ds)) = ['/'] ∧ joinS (d :: ds) = [] := by
        cases hj : joinS (d :: ds) with
        | nil => exact Or.inr ⟨rfl, rfl⟩
        | cons e es => exact Or.inl (by rw [List.getLast?_cons_cons])
      intro h
      rw [List.getLast?_append] at h
      have h3 : ('/' :: joinS (d :: ds)).getLast? = some '/' := by
        cases hg : ('/' :: joinS (d :: ds)).getLast? with
        | some x => rw [hg] at h; simpa using h
        | none => simp at hg
      rcases h2 with h2 | h2
      · rw [h2] at h3
        exact ih (by simp) (fun x hx => hc x (List.mem_cons_of_mem c hx)) h3
      · have := hc d (by simp)
        have hd : joinS (d :: ds) = [] := h2.2
        cases ds with
        | nil => exact this.1 hd
        | cons e es =>
          rw [show joinS (d :: e :: es) = d ++ '/' :: joinS (e :: es) from rfl] at hd
          simp at hd

theorem procComps_general (abs : Bool) (comps : List Path)
    (h : ∀ c ∈ comps, c ≠ ['.', '.']) :
    ∀ acc, procComps abs acc comps =
      acc.reverse ++ comps.filter (fun c => !(c == [] || c == ['.'])) := by
  induction comps with
  | nil => intro acc; simp [procComps]
  | cons comp rest ih =>
    intro acc
    have hcomp : comp ≠ ['.', '.'] := h comp (List.mem_cons_self comp rest)
    have hrest : ∀ c ∈ rest, c ≠ ['.', '.'] := fun c hc => h c (List.mem_cons_of_mem comp hc)
    simp only [procComps]
    by_cases h1 : comp = [] ∨ comp = ['.']
    · rw [if_pos h1, ih hrest acc, List.filter_cons,
        if_neg (by rcases h1 with h1 | h1 <;> simp [h1])]
    · rw [if_neg h1, if_pos (Or.inl hcomp), ih hrest (comp :: acc), List.filter_cons,
        if_pos (by push_neg at h1; simp [h1.1, h1.2])]
      simp

theorem filter_eq_self_of_clean (comps : List Path) (hc : CleanComps comps) :
    comps.filter (fun c => !(c == [] || c == ['.'])) = comps := by
  rw [List.filter_eq_self]
  intro c hcm
  have := hc c hcm
  simp [this.1, this.2.1]

theorem isPrefixOf_two_slashes_false (y : Path) (a : Char) (ha : a ≠ '/') :
    ['/', '/'].isPrefixOf ('/' :: a :: y) = false := by
  simp [List.isPrefixOf, ha]
  exact fun h => absurd h.symm ha

theorem normpath_canon (comps : List Path) (hne : comps ≠ [])
    (hs : ∀ c ∈ comps, '/' ∉ c) (hd : ∀ c ∈ comps, c ≠ ['.', '.'])
    (a : Char) (t : Path) (hfirst : comps.head? = some (a :: t)) :
    normpath ('/' :: joinS comps) =
      '/' :: joinS (comps.filter (fun c => !(c == [] || c == ['.']))) := by
  obtain ⟨y, hy⟩ := joinS_head comps a t hfirst
  have ha : a ≠ '/' := by
    intro h
    obtain ⟨c, hcm, hch⟩ : ∃ c ∈ comps, a ∈ c := by
      cases comps with
      | nil => simp at hfirst
      | cons c cs =>
        simp only [List.head?_cons, Option.some_inj] at hfirst
        exact ⟨c, List.mem_cons_self c cs, by rw [hfirst]; exact List.mem_cons_self a t⟩
    exact hs c hcm (h ▸ hch)
  have hpfx2 : ['/', '/'].isPrefixOf ('/' :: joinS comps) = false := by
    rw [hy]; exact isPrefixOf_two_slashes_false y a ha
  have hpfx1 : ['/'].isPrefixOf ('/' :: joinS comps) = true := by
    simp [List.isPrefixOf]
  have hsplit : splitSep ('/' :: joinS comps) = [] :: comps := by
    have h1 : splitSep ('/' :: joinS comps) = [] :: splitSep (joinS comps) := by
      simp [splitSep]
    rw [h1, splitSep_joinS comps hne hs]
  rw [normpath, if_neg (by simp)]
  simp only [hpfx2, hpfx1, Bool.false_eq_true, false_and, if_false, if_true, hsplit]
  rw [procComps_general _ ([] :: comps) (by
    intro c hc
    rcases List.mem_cons.mp hc with h | h
    · rw [h]; simp
    · exact hd c h) []]
  rw [List.filter_cons, if_neg (by simp)]
  simp only [List.reverse_nil, List.nil_append, List.replicate, List.cons_append,
    List.nil_append]
  rw [if_neg (by simp)]

theorem normpath_canon_clean (comps : List Path) (hne : comps ≠ [])
    (hc : CleanComps comps) (a : Char) (t : Path) (hfirst : comps.head? = some (a :: t)) :
    normpath ('/' :: joinS comps) = '/' :: joinS comps := by
  rw [normpath_canon comps hne (fun c h => (hc c h).2.2.2) (fun c h => (hc c h).2.2.1) a t hfirst,
    filter_eq_self_of_clean comps hc]

theorem splitSep_mem_no_slash (l : Path) : ∀ c ∈ splitSep l, '/' ∉ c := by
  induction l with
  | nil =>
    intro c hc
    simp only [splitSep, List.mem_singleton] at hc
    simp [hc]
  | cons a as ih =>
    intro c hc
    simp only [splitSep] at hc
    split at hc
    · rcases List.mem_cons.mp hc with h | h
      · simp [h]
      · exact ih c h
    · rename_i ha
      cases hsp : splitSep as with
      | nil => exact absurd hsp (splitSep_ne_nil as)
      | cons t rest =>
        rw [hsp] at hc
        rcases List.mem_cons.mp hc with h | h
        · subst h
          intro hm
          rcases List.mem_cons.mp hm with h | h
          · exact ha h.symm
          · exact ih t (hsp ▸ List.mem_cons_self t rest) h
        · exact ih c (hsp ▸ List.mem_cons_of_mem t h)

theorem procComps_mem (abs : Bool) : ∀ (comps acc : List Path) (c : Path),
    c ∈ procComps abs acc comps → c ∈ acc ∨ c ∈ comps := by
  intro comps
  induction comps with
  | nil =>
    intro acc c hc
    simp only [procComps] at hc
    exact Or.inl (List.mem_reverse.mp hc)
  | cons comp rest ih =>
    intro acc c hc
    simp only [procComps] at hc
    split at hc
    · rcases ih acc c hc with h | h
      · exact Or.inl h
      · exact Or.inr (List.mem_cons_of_mem comp h)
    · split at hc
      · rcases ih (comp :: acc) c hc with h | h
        · rcases List.mem_cons.mp h with h | h
          · exact Or.inr (h ▸ List.mem_cons_self comp rest)
          · exact Or.inl h
        · exact Or.inr (List.mem_cons_of_mem comp h)
      · cases hacc : acc with
        | nil =>
          rw [hacc] at hc
          rcases ih [] c hc with h | h
          · exact absurd h (List.not_mem_nil c)
          · exact Or.inr (List.mem_cons_of_mem comp h)
        | cons x acc₂ =>
          rw [hacc] at hc
          rcases ih acc₂ c hc with h | h
          · exact Or.inl (hacc ▸ List.mem_cons_of_mem x h)
          · exact Or.inr (List.mem_cons_of_mem comp h)

theorem procComps_clean_out : ∀ (comps acc : List Path),
    (∀ c ∈ acc, c ≠ [] ∧ c ≠ ['.'] ∧ c ≠ ['.', '.']) →
    ∀ c ∈ procComps true acc comps, c ≠ [] ∧ c ≠ ['.'] ∧ c ≠ ['.', '.'] := by
  intro comps
  induction comps with
  | nil =>
    intro acc hacc c hc
    simp only [procComps] at hc
    exact hacc c (List.mem_reverse.mp hc)
  | cons comp rest ih =>
    intro acc hacc c hc
    simp only [procComps] at hc
    split at hc
    · exact ih acc hacc c hc
    · rename_i h1
      split at hc
      · rename_i h2
        have hcomp : comp ≠ ['.', '.'] := by
          rcases h2 with h2 | h2 | h2
          · exact h2
          · simp at h2
          · exfalso
            have hm : ['.', '.'] ∈ acc := by
              cases acc with
              | nil => simp at h2
              | cons x acc₂ =>
                simp only [List.head?_cons, Option.some_inj] at h2
                exact h2 ▸ List.mem_cons_self x acc₂
            exact (hacc _ hm).2.2 rfl
        push_neg at h1
        refine ih (comp :: acc) ?_ c hc
        intro x hx
        rcases List.mem_cons.mp hx with h | h
        · exact h ▸ ⟨h1.1, h1.2, hcomp⟩
        · exact hacc x h
      · cases hacc2 : acc with
        | nil =>
          rw [hacc2] at hc
          exact ih [] (by simp) c hc
        | cons x acc₂ =>
          rw [hacc2] at hc
          refine ih acc₂ ?_ c hc
          intro y hy
          exact hacc y (hacc2 ▸ List.mem_cons_of_mem x hy)

theorem normAbs_parts (p : Path) (h : normAbs p = true) :
    normpath p = p ∧ p.head? = some '/' ∧ ['/', '/'].isPrefixOf p = false := by
  simp only [normAbs, Bool.and_eq_true, beq_iff_eq, Bool.not_eq_true'] at h
  refine ⟨h.1.1, ?_, h.2⟩
  have := h.1.2
  simpa using this

theorem normAbs_structure (p : Path) (h : normAbs p = true) (hne : p ≠ ['/']) :
    ∃ comps, p = '/' :: joinS comps ∧ comps ≠ [] ∧ CleanComps comps := by
  obtain ⟨hn, hh, hp2⟩ := normAbs_parts p h
  have hpne : p ≠ [] := by intro hc; rw [hc] at hh; simp at hh
  have hp1 : ['/'].isPrefixOf p = true := by
    cases p with
    | nil => simp at hh
    | cons c cs =>
      simp only [List.head?_cons, Option.some_inj] at hh
      simp [List.isPrefixOf, hh]
  set comps := procComps true [] (splitSep p) with hcomps
  have hslashes : normpath p =
      if ('/' :: joinS comps) = [] then ['.'] else '/' :: joinS comps := by
    rw [normpath, if_neg hpne]
    simp only [hp2, hp1, Bool.false_eq_true, false_and, if_false, if_true]
    rfl
  rw [hslashes, if_neg (by simp)] at hn
  refine ⟨comps, hn.symm, ?_, ?_⟩
  · intro hc
    rw [hc] at hn
    exact hne (hn.symm ▸ rfl)
  · intro c hc
    have h1 := procComps_clean_out (splitSep p) [] (by simp) c hc
    have h2 : '/' ∉ c := by
      rcases procComps_mem true (splitSep p) [] c hc with hm | hm
      · exact absurd hm (List.not_mem_nil c)
      · exact splitSep_mem_no_slash p c hm
    exact ⟨h1.1, h1.2.1, h1.2.2, h2⟩

theorem cleanComps_head (comps : List Path) (hne : comps ≠ []) (hc : CleanComps comps) :
    ∃ a t, comps.head? = some (a :: t) ∧ a ≠ '/' := by
  cases comps with
  | nil => exact absurd rfl hne
  | cons c cs =>
    have h := hc c (List.mem_cons_self c cs)
    cases c with
    | nil => exact absurd rfl h.1
    | cons a t =>
      exact ⟨a, t, rfl, fun ha => h.2.2.2 (ha ▸ List.mem_cons_self a t)⟩

theorem normAbs_canon (comps : List Path) (hne : comps ≠ []) (hc : CleanComps comps) :
    normAbs ('/' :: joinS comps) = true := by
  obtain ⟨a, t, hfirst, ha⟩ := cleanComps_head comps hne hc
  obtain ⟨y, hy⟩ := joinS_head comps a t hfirst
  simp only [normAbs, Bool.and_eq_true, beq_iff_eq, Bool.not_eq_true']
  refine ⟨⟨normpath_canon_clean comps hne hc a t hfirst, by simp⟩, ?_⟩
  rw [hy]
  exact isPrefixOf_two_slashes_false y a ha

theorem isPrefixOf_append_self (a b : Path) : a.isPrefixOf (a ++ b) = true := by
  rw [List.isPrefixOf_iff_prefix]
  exact ⟨b, rfl⟩

/-- A separator-free pattern that is a string prefix of `c ++ '/' :: t`
with `c` separator-free is already a prefix of `c`. -/
theorem pfx_no_slash (w : Path) (hw : '/' ∉ w) : ∀ c : Path, '/' ∉ c → ∀ t : Path,
    w.isPrefixOf (c ++ '/' :: t) = true → w.isPrefixOf c = true := by
  induction w with
  | nil => intro c _ t _; simp
  | cons a w' ih =>
    intro c hcn t h
    cases c with
    | nil =>
      rw [List.nil_append, List.isPrefixOf_cons₂] at h
      have ha : a ≠ '/' := fun hc => hw (hc ▸ List.mem_cons_self a w')
      simp [ha] at h
    | cons b c' =>
      rw [List.cons_append, List.isPrefixOf_cons₂] at h
      rw [List.isPrefixOf_cons₂]
      rcases Bool.and_eq_true_iff.mp h with ⟨h1, h2⟩
      rw [h1, Bool.true_and]
      exact ih (fun hm => hw (List.mem_cons_of_mem a hm)) c'
        (fun hm => hcn (List.mem_cons_of_mem b hm)) t h2

/-- Occurrences of the separator-started pattern skip over a
separator-free block. -/
theorem hasSub_slash_append (w : Path) (x : Path) (hx : '/' ∉ x) (t : Path) :
    hasSub ('/' :: w) (x ++ t) = hasSub ('/' :: w) t := by
  induction x with
  | nil => rfl
  | cons a x' ih =>
    have ha : a ≠ '/' := fun hc => hx (hc ▸ List.mem_cons_self a x')
    have hx' : '/' ∉ x' := fun hm => hx (List.mem_cons_of_mem a hm)
    rw [List.cons_append]
    show (('/' :: w).isPrefixOf (a :: (x' ++ t)) || hasSub ('/' :: w) (x' ++ t)) = _
    rw [List.isPrefixOf_cons₂]
    have : (('/' : Char) == a) = false := by
      simp
      exact fun hc => ha hc.symm
    rw [this, Bool.false_and, Bool.false_or]
    exact ih hx'

theorem hasSub_nil_false (w : Path) (hwne : ('/' :: w) ≠ []) :
    hasSub ('/' :: w) [] = false := by
  simp [hasSub, List.isPrefixOf]

/-- No occurrence of `'/' :: w` in the canonical path `'/' :: joinS comps`
when no component has `w` as a prefix. -/
theorem hasSub_canon_false (w : Path) (hw : '/' ∉ w) (hwne : w ≠ []) :
    ∀ comps : List Path, (∀ c ∈ comps, '/' ∉ c) →
    (∀ c ∈ comps, w.isPrefixOf c = false) →
    hasSub ('/' :: w) ('/' :: joinS comps) = false := by
  intro comps
  induction comps with
  | nil =>
    intro _ _
    show (('/' :: w).isPrefixOf ('/' :: []) || hasSub ('/' :: w) []) = false
    rw [hasSub_nil_false w (by simp), Bool.or_false, List.isPrefixOf_cons₂]
    cases w with
    | nil => exact absurd rfl hwne
    | cons a w' => simp [List.isPrefixOf]
  | cons c cs ih =>
    intro hs hnp
    have hcs : '/' ∉ c := hs c (List.mem_cons_self c cs)
    have hcp : w.isPrefixOf c = false := hnp c (List.mem_cons_self c cs)
    cases cs with
    | nil =>
      show (('/' :: w).isPrefixOf ('/' :: joinS [c]) || hasSub ('/' :: w) (joinS [c])) = false
      have h1 : hasSub ('/' :: w) (joinS [c]) = false := by
        show hasSub ('/' :: w) c = false
        have := hasSub_slash_append w c hcs []
        rw [List.append_nil] at this
        rw [this]
        exact hasSub_nil_false w (by simp)
      rw [h1, Bool.or_false, List.isPrefixOf_cons₂]
      have h2 : w.isPrefixOf (joinS [c]) = false := by
        show w.isPrefixOf c = false
        exact hcp
      simp [h2]
    | cons d ds =>
      have hjoin : joinS (c :: d :: ds) = c ++ '/' :: joinS (d :: ds) := rfl
      show (('/' :: w).isPrefixOf ('/' :: joinS (c :: d :: ds)) ||
        hasSub ('/' :: w) (joinS (c :: d :: ds))) = false
      have h1 : hasSub ('/' :: w) (joinS (c :: d :: ds)) = false := by
        rw [hjoin, hasSub_slash_append w c hcs]
        exact ih (fun x hx => hs x (List.mem_cons_of_mem c hx))
          (fun x hx => hnp x (List.mem_cons_of_mem c hx))
      have h2 : ('/' :: w).isPrefixOf ('/' :: joinS (c :: d :: ds)) = false := by
        rw [List.isPrefixOf_cons₂, hjoin]
        cases hwp : w.isPrefixOf (c ++ '/' :: joinS (d :: ds)) with
        | false => simp [hwp]
        | true =>
          have := pfx_no_slash w hw c hcs (joinS (d :: ds)) hwp
          rw [this] at hcp
          exact absurd hcp (by simp)
      rw [h1, h2, Bool.false_or]

theorem hasSub_nil_pat (l : Path) : hasSub [] l = true := by
  cases l <;> simp [hasSub]

theorem hasSub_self_append (pat y : Path) : hasSub pat (pat ++ y) = true := by
  cases pat with
  | nil => exact hasSub_nil_pat y
  | cons a as =>
    show ((a :: as).isPrefixOf ((a :: as) ++ y) || hasSub (a :: as) (as ++ y)) = true
    rw [isPrefixOf_append_self]
    simp

/-- An explicit occurrence makes `hasSub` true. -/
theorem hasSub_of_occurrence (pat : Path) : ∀ x y : Path,
    hasSub pat (x ++ pat ++ y) = true := by
  intro x
  induction x with
  | nil =>
    intro y
    exact hasSub_self_append pat y
  | cons c x' ih =>
    intro y
    show (pat.isPrefixOf (c :: (x' ++ pat ++ y)) || hasSub pat (x' ++ pat ++ y)) = true
    rw [ih y]
    simp

theorem joinS_splitSep (l : Path) : joinS (splitSep l) = l := by
  induction l with
  | nil => rfl
  | cons c cs ih =>
    simp only [splitSep]
    by_cases hc : c = '/'
    · rw [if_pos hc]
      cases hsp : splitSep cs with
      | nil => exact absurd hsp (splitSep_ne_nil cs)
      | cons t rest =>
        rw [show joinS ([] :: t :: rest) = [] ++ '/' :: joinS (t :: rest) from rfl]
        rw [List.nil_append, ← hsp, ih, hc]
    · rw [if_neg hc]
      cases hsp : splitSep cs with
      | nil => exact absurd hsp (splitSep_ne_nil cs)
      | cons t rest =>
        cases rest with
        | nil =>
          rw [show joinS [c :: t] = c :: t from rfl]
          have : joinS [t] = t := rfl
          rw [← this, ← hsp, ih]
        | cons u us =>
          rw [show joinS ((c :: t) :: u :: us) = (c :: t) ++ '/' :: joinS (u :: us) from rfl]
          rw [show (c :: t) ++ '/' :: joinS (u :: us) = c :: (t ++ '/' :: joinS (u :: us)) from rfl]
          rw [show t ++ '/' :: joinS (u :: us) = joinS (t :: u :: us) from rfl, ← hsp, ih]

theorem splitSep_joinS_append (hcomps : List Path) (hne : hcomps ≠ [])
    (hs : ∀ c ∈ hcomps, '/' ∉ c) (t : Path) :
    splitSep (joinS hcomps ++ '/' :: t) = hcomps ++ splitSep t := by
  induction hcomps with
  | nil => exact absurd rfl hne
  | cons c cs ih =>
    cases cs with
    | nil =>
      rw [show joinS [c] = c from rfl]
      rw [splitSep_no_slash_append c (hs c (List.mem_cons_self c [])) t]
      rfl
    | cons d ds =>
      rw [show joinS (c :: d :: ds) = c ++ '/' :: joinS (d :: ds) from rfl]
      rw [List.append_assoc, List.cons_append]
      rw [splitSep_no_slash_append c (hs c (List.mem_cons_self c _))]
      rw [ih (by simp) (fun x hx => hs x (List.mem_cons_of_mem c hx))]
      rfl

theorem lstripSep_canon (comps : List Path) (a : Char) (t : Path)
    (hfirst : comps.head? = some (a :: t)) (ha : a ≠ '/') :
    lstripSep ('/' :: joinS comps) = joinS comps := by
  obtain ⟨y, hy⟩ := joinS_head comps a t hfirst
  rw [lstripSep, hy, List.dropWhile_cons]
  rw [if_pos (by simp), List.dropWhile_cons, if_neg (by simpa using ha)]

theorem getLast_cons_ne_nil (x : Path) (c : Char) (hx : x ≠ []) :
    (c :: x).getLast? = x.getLast? := by
  cases x with
  | nil => exact absurd rfl hx
  | cons d ds => exact List.getLast?_cons_cons

theorem joinS_ne_nil (comps : List Path) (a : Char) (t : Path)
    (hfirst : comps.head? = some (a :: t)) : joinS comps ≠ [] := by
  obtain ⟨y, hy⟩ := joinS_head comps a t hfirst
  rw [hy]
  simp

theorem pjoin_canon (rcomps : List Path) (hrne : rcomps ≠ []) (hrc : CleanComps rcomps)
    (x : Path) (a : Char) (t : Path) (hhead : x.head? = some a) (ha : a ≠ '/') :
    pjoin ('/' :: joinS rcomps) x = ('/' :: joinS rcomps) ++ '/' :: x := by
  obtain ⟨b, u, hfirst, hb⟩ := cleanComps_head rcomps hrne hrc
  have h1 : ¬(x.head? = some '/') := by
    rw [hhead]; simp; exact fun h => ha h
  have h2 : ¬('/' :: joinS rcomps = [] ∨ ('/' :: joinS rcomps).getLast? = some '/') := by
    rintro (h | h)
    · simp at h
    · rw [getLast_cons_ne_nil _ _ (joinS_ne_nil rcomps b u hfirst)] at h
      exact joinS_getLast_ne_slash rcomps hrne hrc h
  rw [pjoin, if_neg h1, if_neg h2]

theorem repAux_skip (pat rep : Path) : ∀ (x z : Path),
    repAux pat rep x.length (x ++ z) = repAux pat rep 0 z := by
  intro x
  induction x with
  | nil => intro z; rfl
  | cons c x' ih =>
    intro z
    rw [List.cons_append, List.length_cons]
    show repAux pat rep (x'.length + 1) (c :: (x' ++ z)) = _
    rw [show repAux pat rep (x'.length + 1) (c :: (x' ++ z)) =
      repAux pat rep x'.length (x' ++ z) from rfl]
    exact ih z

theorem replaceAll_append_pat (pat rep z : Path) (hne : pat ≠ []) :
    replaceAll pat rep (pat ++ z) = rep ++ replaceAll pat rep z := by
  rw [replaceAll, if_neg hne, replaceAll, if_neg hne]
  cases hp : pat with
  | nil => exact absurd hp hne
  | cons a as =>
    rw [List.cons_append]
    have hpre : (a :: as).isPrefixOf (a :: (as ++ z)) = true := by
      have := isPrefixOf_append_self (a :: as) z
      rwa [List.cons_append] at this
    simp only [repAux, hpre, if_true, List.length_cons, Nat.add_sub_cancel]
    rw [repAux_skip (a :: as) rep as z]

theorem hasSub_mono_left (pat : Path) : ∀ (x z : Path),
    hasSub pat z = true → hasSub pat (x ++ z) = true := by
  intro x
  induction x with
  | nil => intro z h; exact h
  | cons c x' ih =>
    intro z h
    rw [List.cons_append]
    show (pat.isPrefixOf (c :: (x' ++ z)) || hasSub pat (x' ++ z)) = true
    rw [ih z h]
    simp

theorem envWF_parts (env : Env) (h : envWF env = true) :
    normAbs env.home = true ∧ env.home ≠ ['/'] ∧ normAbs env.repoDir = true ∧
    env.repoDir ≠ ['/'] ∧ normAbs env.backupDir = true ∧ env.backupDir ≠ ['/'] := by
  simp only [envWF, Bool.and_eq_true, decide_eq_true_eq] at h
  exact ⟨h.1.1.1.1.1, h.1.1.1.1.2, h.1.1.1.2, h.1.1.2, h.1.2, h.2⟩

theorem goodPath_parts (env : Env) (p : Path) (h : goodPath env p = true) :
    normAbs p = true ∧ noTok p = true ∧
    ((getUserHome env).isPrefixOf p = false ∨ p = getUserHome env ∨
      (getUserHome env ++ ['/']).isPrefixOf p = true) := by
  simp only [goodPath, Bool.and_eq_true, Bool.or_eq_true, Bool.not_eq_true',
    beq_iff_eq] at h
  exact ⟨h.1.1, h.1.2, or_assoc.mp h.2⟩

theorem getUserHome_eq (env : Env) (h : normAbs env.home = true) :
    getUserHome env = env.home := (normAbs_parts env.home h).1

theorem isPrefixOf_refl (l : Path) : l.isPrefixOf l = true := by
  rw [List.isPrefixOf_iff_prefix]

theorem homeComp_facts :
    homeComp ≠ [] ∧ homeComp ≠ ['.'] ∧ homeComp ≠ ['.', '.'] ∧ '/' ∉ homeComp := by
  refine ⟨by decide, by decide, by decide, by decide⟩

theorem joinS_cons_nil_cons (rest : List Path) (hne : rest ≠ []) :
    joinS ([] :: rest) = '/' :: joinS rest := by
  cases rest with
  | nil => exact absurd rfl hne
  | cons r rs => rfl

/-- `__maskHome` on a good path under a well-formed home: either home is
not a string prefix (the path passes through `normpath` unchanged), or
goodness puts the prefix on a component boundary and the mask yields the
canonical placeholder path. -/
theorem maskHome_canon (env : Env) (p : Path) (pcomps : List Path)
    (hWF : normAbs env.home = true) (hhne : env.home ≠ ['/'])
    (hp : p = '/' :: joinS pcomps) (hpc : CleanComps pcomps) (hpne : pcomps ≠ [])
    (htok : noTok p = true)
    (hbound : (getUserHome env).isPrefixOf p = false ∨ p = getUserHome env ∨
      (getUserHome env ++ ['/']).isPrefixOf p = true) :
    maskHome env p = p ∨
    (∃ rest : List Path, CleanComps rest ∧
      maskHome env p = '/' :: joinS (homeComp :: rest) ∧
      ((rest = [] ∧ p = env.home) ∨
        (rest ≠ [] ∧ p = env.home ++ '/' :: joinS rest ∧ pcomps ≠ [] ∧
          ∃ hcomps, env.home = '/' :: joinS hcomps ∧ hcomps ≠ [] ∧
            CleanComps hcomps ∧ pcomps = hcomps ++ rest))) := by
  have hh : getUserHome env = env.home := getUserHome_eq env hWF
  obtain ⟨a, t, hfirst, ha⟩ := cleanComps_head pcomps hpne hpc
  rcases hbound with hb | hb | hb
  · left
    rw [maskHome, hh]
    rw [hh] at hb
    rw [if_neg (by rw [hb]; exact Bool.false_ne_true)]
    rw [hp]
    exact normpath_canon_clean pcomps hpne hpc a t hfirst
  · right
    rw [hh] at hb
    refine ⟨[], by intro c hc; simp at hc, ?_, Or.inl ⟨rfl, hb⟩⟩
    rw [maskHome, hh]
    rw [if_pos (by rw [hb]; exact isPrefixOf_refl env.home), hb, List.drop_length,
      List.append_nil]
    have hps : homePatSlash = '/' :: joinS [homeComp, []] := by
      show homePatSlash = '/' :: (homeComp ++ '/' :: joinS [([] : Path)])
      rfl
    rw [hps]
    rw [normpath_canon [homeComp, []] (by simp)
      (by
        intro c hc
        rcases List.mem_cons.mp hc with h | h
        · rw [h]; exact homeComp_facts.2.2.2
        · simp at h; simp [h])
      (by
        intro c hc
        rcases List.mem_cons.mp hc with h | h
        · rw [h]; exact homeComp_facts.2.2.1
        · simp at h; simp [h])
      '$' ('H' :: 'O' :: 'M' :: 'E' :: []) rfl]
    rfl
  · right
    obtain ⟨hcomps, hhc, hhcne, hhcc⟩ :=
      normAbs_structure env.home hWF hhne
    obtain ⟨t₀, ht₀⟩ : ∃ t₀, p = (getUserHome env ++ ['/']) ++ t₀ := by
      have := List.isPrefixOf_iff_prefix.mp hb
      obtain ⟨t₀, ht₀⟩ := this
      exact ⟨t₀, ht₀.symm⟩
    rw [hh] at ht₀
    have ht₀2 : p = env.home ++ '/' :: t₀ := by
      rw [ht₀, List.append_assoc]
      rfl
    have hjoin : joinS pcomps = joinS hcomps ++ '/' :: t₀ := by
      have h1 : '/' :: joinS pcomps = '/' :: (joinS hcomps ++ '/' :: t₀) := by
        rw [← hp, ht₀2, hhc]
        rfl
      injection h1
    have hsplit : pcomps = hcomps ++ splitSep t₀ := by
      have h1 := splitSep_joinS pcomps hpne (fun c hc => (hpc c hc).2.2.2)
      have h2 := splitSep_joinS_append hcomps hhcne
        (fun c hc => (hhcc c hc).2.2.2) t₀
      rw [← h1, hjoin, h2]
    set rest := splitSep t₀ with hrest
    have hrne : rest ≠ [] := splitSep_ne_nil t₀
    have hrc : CleanComps rest := cleanComps_of_append_right (hsplit ▸ hpc)
    have ht₀3 : t₀ = joinS rest := (joinS_splitSep t₀).symm
    refine ⟨rest, hrc, ?_, Or.inr ⟨hrne, by rw [ht₀2, ht₀3], hpne,
      hcomps, hhc, hhcne, hhcc, hsplit⟩⟩
    rw [maskHome, hh]
    have hpfx : env.home.isPrefixOf p = true := by
      rw [List.isPrefixOf_iff_prefix]
      exact ⟨'/' :: t₀, ht₀2.symm⟩
    rw [if_pos (by rw [hpfx])]
    have hdrop : p.drop env.home.length = '/' :: t₀ := by
      rw [ht₀2]
      exact List.drop_left env.home ('/' :: t₀)
    rw [hdrop, ht₀3]
    have hinput : homePatSlash ++ '/' :: joinS rest =
        '/' :: joinS (homeComp :: [] :: rest) := by
      rw [show joinS (homeComp :: [] :: rest) =
        homeComp ++ '/' :: joinS ([] :: rest) from rfl]
      rw [joinS_cons_nil_cons rest hrne]
      show ('/' :: homeComp ++ ['/']) ++ '/' :: joinS rest = _
      simp
    rw [hinput]
    rw [normpath_canon (homeComp :: [] :: rest) (by simp)
      (by
        intro c hc
        rcases List.mem_cons.mp hc with h | h
        · rw [h]; exact homeComp_facts.2.2.2
        · rcases List.mem_cons.mp h with h | h
          · simp [h]
          · exact (hrc c h).2.2.2)
      (by
        intro c hc
        rcases List.mem_cons.mp hc with h | h
        · rw [h]; exact homeComp_facts.2.2.1
        · rcases List.mem_cons.mp h with h | h
          · simp [h]
          · exact (hrc c h).2.2.1)
      '$' ('H' :: 'O' :: 'M' :: 'E' :: []) rfl]
    rw [List.filter_cons, if_pos (by decide), List.filter_cons, if_neg (by simp),
      filter_eq_self_of_clean rest hrc]

theorem replaceAll_nil (pat rep : Path) : replaceAll pat rep [] = [] := by
  rw [replaceAll]
  split
  · rfl
  · cases pat with
    | nil => rfl
    | cons a as => rfl

theorem pjoin_lstrip_canon (env : Env) (hr : normAbs env.repoDir = true)
    (hrne : env.repoDir ≠ ['/']) (X : List Path) (hXc : CleanComps X) (hXne : X ≠ []) :
    pjoin env.repoDir (lstripSep ('/' :: joinS X)) = env.repoDir ++ '/' :: joinS X ∧
    normAbs (env.repoDir ++ '/' :: joinS X) = true ∧
    (env.repoDir ++ '/' :: joinS X).drop env.repoDir.length = '/' :: joinS X := by
  obtain ⟨rcomps, hrc, hrcne, hrcc⟩ := normAbs_structure env.repoDir hr hrne
  obtain ⟨a, t, hfirst, ha⟩ := cleanComps_head X hXne hXc
  obtain ⟨y, hy⟩ := joinS_head X a t hfirst
  have hcat : env.repoDir ++ '/' :: joinS X = '/' :: joinS (rcomps ++ X) := by
    rw [hrc, joinS_append rcomps X hrcne hXne]
    rfl
  refine ⟨?_, ?_, ?_⟩
  · rw [lstripSep_canon X a t hfirst ha, hrc,
      pjoin_canon rcomps hrcne hrcc (joinS X) a y (by rw [hy]; rfl) ha]
  · rw [hcat]
    exact normAbs_canon (rcomps ++ X) (by simp [hrcne]) (cleanComps_append hrcc hXc)
  · exact List.drop_left env.repoDir ('/' :: joinS X)

/-- `__getRepoFilePath` on a good path under a well-formed environment:
the repository path is the repository root plus a canonical (possibly
placeholder-masked) relative part; stripping `len(repoDir)` characters
and `__unmaskHome`-ing it — the decoding the source performs in `list` —
recovers `p` exactly; and the repository path differs from `p` and is
itself normalized absolute. -/
theorem getRepoFilePath_canon (env : Env) (p : Path)
    (hWF : envWF env = true) (hg : goodPath env p = true) (hpne : p ≠ ['/']) :
    ∃ X : List Path, CleanComps X ∧ X ≠ [] ∧
      getRepoFilePath env p = env.repoDir ++ '/' :: joinS X ∧
      unmaskHome env ((getRepoFilePath env p).drop env.repoDir.length) = p ∧
      getRepoFilePath env p ≠ p ∧
      normAbs (getRepoFilePath env p) = true := by
  obtain ⟨hhWF, hhne, hrWF, hrne, _, _⟩ := envWF_parts env hWF
  obtain ⟨hna, htok, hbound⟩ := goodPath_parts env p hg
  obtain ⟨hn, hh, _⟩ := normAbs_parts p hna
  obtain ⟨pcomps, hp, hpcne, hpcc⟩ := normAbs_structure p hna hpne
  have habs : abspathP env p = p := abspathP_eq_self env p hn hh
  have htokSub : hasSub homePat p = false := by simpa [noTok] using htok
  rcases maskHome_canon env p pcomps hhWF hhne hp hpcc hpcne htok hbound with
    hmask | ⟨rest, hrc, hmask, hcase⟩
  · obtain ⟨h1, h2, h3⟩ := pjoin_lstrip_canon env hrWF hrne pcomps hpcc hpcne
    refine ⟨pcomps, hpcc, hpcne, ?_, ?_, ?_, ?_⟩
    · rw [getRepoFilePath, habs, hmask, hp, h1]
    · rw [getRepoFilePath, habs, hmask, hp, h1, h3, ← hp]
      exact unmaskHome_eq_self env p hn htok
    · rw [getRepoFilePath, habs, hmask, hp, h1]
      intro hc
      have := congrArg List.length hc
      rw [List.length_append] at this
      have hrlen : env.repoDir.length ≠ 0 := by
        intro h0
        rw [List.length_eq_zero] at h0
        rw [h0] at hrWF
        have := (normAbs_parts [] hrWF).2.1
        simp at this
      omega
    · rw [getRepoFilePath, habs, hmask, hp, h1]
      exact h2
  · have hXc : CleanComps (homeComp :: rest) := by
      intro c hc
      rcases List.mem_cons.mp hc with h | h
      · rw [h]
        exact ⟨homeComp_facts.1, homeComp_facts.2.1, homeComp_facts.2.2.1,
          homeComp_facts.2.2.2⟩
      · exact hrc c h
    obtain ⟨h1, h2, h3⟩ := pjoin_lstrip_canon env hrWF hrne (homeComp :: rest)
      hXc (by simp)
    have hz : ∃ z : Path, '/' :: joinS (homeComp :: rest) = homePat ++ z ∧
        hasSub homePat z = false ∧ normpath (env.home ++ z) = p := by
      rcases hcase with ⟨hre, hph⟩ | ⟨hre, hph, _, hcomps, hhc, hhcne, hhcc, hsplit⟩
      · refine ⟨[], by rw [hre]; rfl, by simp [hasSub, homePat, homeComp, List.isPrefixOf], ?_⟩
        rw [List.append_nil, hph]
        exact (normAbs_parts env.home hhWF).1
      · refine ⟨'/' :: joinS rest, ?_, ?_, ?_⟩
        · rw [show joinS (homeComp :: rest) = homeComp ++ '/' :: joinS rest from by
            cases rest with
            | nil => exact absurd rfl hre
            | cons r rs => rfl]
          rfl
        · cases hsub : hasSub homePat ('/' :: joinS rest) with
          | false => rfl
          | true =>
            exfalso
            have := hasSub_mono_left homePat env.home ('/' :: joinS rest) hsub
            rw [← hph] at this
            rw [htokSub] at this
            exact absurd this (by simp)
        · rw [← hph]
          exact hn
    obtain ⟨z, hz1, hz2, hz3⟩ := hz
    have hunmask : unmaskHome env ('/' :: joinS (homeComp :: rest)) = p := by
      rw [unmaskHome, hz1, getUserHome_eq env hhWF,
        replaceAll_append_pat homePat env.home z (by simp [homePat]),
        replaceAll_of_not_hasSub homePat env.home z hz2]
      exact hz3
    refine ⟨homeComp :: rest, hXc, by simp, ?_, ?_, ?_, ?_⟩
    · rw [getRepoFilePath, habs, hmask, h1]
    · rw [getRepoFilePath, habs, hmask, h1, h3]
      exact hunmask
    · rw [getRepoFilePath, habs, hmask, h1]
      intro hc
      have hocc : hasSub homePat (env.repoDir ++ '/' :: joinS (homeComp :: rest)) = true := by
        rw [hz1, ← List.append_assoc]
        exact hasSub_of_occurrence homePat (env.repoDir) z
      rw [hc, htokSub] at hocc
      exact absurd hocc (by simp)
    · rw [getRepoFilePath, habs, hmask, h1]
      exact h2

/-! ## Claim C1 -/

/-- C1 (amended): for a well-formed environment (home, repository root and
backup root normalized absolute and distinct from `/`) and every
normalized absolute path `p` that does not contain the literal placeholder
`"/$HOME"` and whose home-directory string prefix — if any — ends at a
path-component boundary, decoding the repository path of `p` (stripping
`len(repoDir)` characters and substituting the placeholder back, as the
source does in `list`/`__unmaskHome`) yields `normalize(p)`, including the
case where `p` lies under the home directory and the prefix is masked
with the placeholder and later substituted back.  (The unamended claim
fails on paths where the home prefix cuts a component, e.g. home
`/home/u` against `/home/user2/f`, and on paths containing the literal
placeholder.) -/
theorem c1_roundtrip_amended (env : Env) (p : Path)
    (hWF : envWF env = true) (hg : goodPath env p = true) :
    fromRepoPath env (toRepoPath env p) = normpath p := by
  obtain ⟨hhWF, hhne, hrWF, hrne, _, _⟩ := envWF_parts env hWF
  by_cases hpr : p = ['/']
  · subst hpr
    have habs : abspathP env ['/'] = ['/'] := by
      rw [abspathP, if_pos (show (['/'] : Path).head? = some '/' from rfl)]
      decide
    have hmask : maskHome env ['/'] = ['/'] := by
      obtain ⟨hcomps, hhc, hhcne, hhcc⟩ := normAbs_structure env.home hhWF hhne
      obtain ⟨a, t, hfirst, ha⟩ := cleanComps_head hcomps hhcne hhcc
      obtain ⟨y, hy⟩ := joinS_head hcomps a t hfirst
      rw [maskHome, getUserHome_eq env hhWF]
      rw [if_neg (by
        rw [hhc, hy]
        rw [List.isPrefixOf_cons₂]
        simp [List.isPrefixOf])]
      decide
    obtain ⟨rcomps, hrc, hrcne, hrcc⟩ := normAbs_structure env.repoDir hrWF hrne
    obtain ⟨b, u, hbfirst, hb⟩ := cleanComps_head rcomps hrcne hrcc
    have hpj : pjoin env.repoDir [] = env.repoDir ++ ['/'] := by
      rw [pjoin, if_neg (by simp), if_neg (by
        rintro (h | h)
        · rw [hrc] at h
          simp at h
        · rw [hrc] at h
          rw [getLast_cons_ne_nil _ _ (joinS_ne_nil rcomps b u hbfirst)] at h
          exact joinS_getLast_ne_slash rcomps hrcne hrcc h)]
    rw [toRepoPath, fromRepoPath, getRepoFilePath, habs, hmask]
    rw [show lstripSep ['/'] = [] from rfl, hpj]
    rw [show env.repoDir ++ ['/'] = env.repoDir ++ '/' :: [] from rfl,
      List.drop_left env.repoDir ('/' :: [])]
    rw [unmaskHome, getUserHome_eq env hhWF,
      replaceAll_of_not_hasSub homePat env.home ['/'] (by decide)]
  · obtain ⟨X, _, _, _, hun, _, _⟩ := getRepoFilePath_canon env p hWF hg hpr
    rw [toRepoPath, fromRepoPath, hun,
      (normAbs_parts p (goodPath_parts env p hg).1).1]

/-- Witness for C1 (amended) at a concrete home path. -/
theorem c1_witness :
    envWF envH = true ∧ goodPath envH (pstr "/home/u/.vimrc") = true ∧
    fromRepoPath envH (toRepoPath envH (pstr "/home/u/.vimrc")) =
      normpath (pstr "/home/u/.vimrc") := by
  refine ⟨by decide, by decide, ?_⟩
  exact c1_roundtrip_amended envH (pstr "/home/u/.vimrc") (by decide) (by decide)

/-! ## Helper lemmas about the OS primitives -/

theorem resolveEntry_get_file (fs : FS) (k : Path) (c : String)
    (hg : fsGet fs k = some (.file c)) :
    resolveEntry fs fuel k = some (.file c) := by
  show resolveEntry fs (39 + 1) k = some (.file c)
  simp only [resolveEntry, hg]

theorem realpathAux_of_get_none (fs : FS) (k : Path) (hg : fsGet fs k = none) :
    ∀ n, realpathAux fs n k = k
  | 0 => rfl
  | n + 1 => by simp [realpathAux, hg]

theorem osRemove_ok_eq (env : Env) (fs fs' : FS) (k : Path)
    (h : osRemove env fs k = .ok fs') : fs' = fsDel fs (abspathP env k) := by
  unfold osRemove at h
  cases hg : fsGet fs (abspathP env k) with
  | none => rw [hg] at h; exact absurd h (by simp)
  | some e =>
    rw [hg] at h
    cases e with
    | dir => exact absurd h (by simp)
    | file c => injection h with h; exact h.symm
    | symlink t => injection h with h; exact h.symm

theorem osRemove_nondir (env : Env) (fs : FS) (k : Path) (e : Entry)
    (hg : fsGet fs (abspathP env k) = some e) (hnd : e ≠ .dir) :
    osRemove env fs k = .ok (fsDel fs (abspathP env k)) := by
  unfold osRemove
  rw [hg]
  cases e with
  | dir => exact absurd rfl hnd
  | file c => rfl
  | symlink t => rfl

theorem osSymlink_of_none (env : Env) (fs : FS) (t k : Path)
    (hg : fsGet fs (abspathP env k) = none) :
    osSymlink env fs t k = .ok (fsSet fs (abspathP env k) (.symlink t)) := by
  unfold osSymlink
  rw [hg]

theorem copy2_file (env : Env) (fs : FS) (src dst : Path) (c : String)
    (hsrc : resolveEntry fs fuel (abspathP env src) = some (.file c))
    (hdst : fsGet fs (abspathP env dst) = none) :
    copy2 env fs src dst = .ok (fsSet fs (abspathP env dst) (.file c)) := by
  unfold copy2
  rw [hsrc]
  simp only [realpathAux_of_get_none fs _ hdst fuel, hdst]

theorem fsGet_isSome_fsSet (fs : FS) (k x : Path) (e : Entry)
    (h : (fsGet fs x).isSome) : (fsGet (fsSet fs k e) x).isSome := by
  by_cases hx : x = k
  · rw [hx, fsGet_fsSet_self]; rfl
  · rw [fsGet_fsSet_ne fs k x e hx]; exact h

/-! ## Claim C4 -/

/-- C4: the full contract of `link(p, force)` for a normalized absolute
`p`: no-op success when already Linked; `ConfixError` ("don't know")
when the repository has no copy; `ConfixError` ("already exists") when a
filesystem entry exists and `force` is false; and with `force` true the
completed steps are always an in-order prefix of backup → remove →
symlink, so a failure before link creation leaves the backup in place; on
the representative plain-file state (with a fresh backup path) the whole
sequence runs: the backup holds the old content, and `p` becomes the
symlink. -/
theorem c4_link_contract (env : Env) (fs : FS) (p : Path) (force : Bool)
    (hn : normpath p = p) (hh : p.head? = some '/') :
    (isLinked env fs p = true → link env fs p force = ⟨fs, [], .ok true⟩) ∧
    (isLinked env fs p = false → existsInRepo env fs p = false →
      link env fs p force = ⟨fs, [], .error (.confixError
        ("don" ++ String.singleton (Char.ofNat 39) ++ "t know " ++ String.mk p))⟩) ∧
    (isLinked env fs p = false → existsInRepo env fs p = true →
      pexists env fs p = true → link env fs p false = ⟨fs, [], .error (.confixError
        (String.mk p ++ " already exists (you might want to use --force)"))⟩) ∧
    (isLinked env fs p = false → existsInRepo env fs p = true →
      pexists env fs p = true →
      (link env fs p true).tr.isPrefixOf
        [.backedUp p, .removed p, .linked (getRepoFilePath env p) p] = true ∧
      (Ev.removed p ∈ (link env fs p true).tr →
        Ev.backedUp p ∈ (link env fs p true).tr)) ∧
    (∀ c : String, isLinked env fs p = false → existsInRepo env fs p = true →
      fsGet fs p = some (.file c) →
      fsGet fs (abspathP env (backupFilePath env p)) = none →
      (fsGet fs (abspathP env (dirname (backupFilePath env p))) = none ∨
        fsGet fs (abspathP env (dirname (backupFilePath env p))) = some .dir) →
      abspathP env (dirname (backupFilePath env p)) ≠ p →
      abspathP env (backupFilePath env p) ≠ p →
      abspathP env (backupFilePath env p) ≠ abspathP env (dirname (backupFilePath env p)) →
      (link env fs p true).res = .ok true ∧
      (link env fs p true).tr =
        [.backedUp p, .removed p, .linked (getRepoFilePath env p) p] ∧
      fsGet (link env fs p true).fs (abspathP env (backupFilePath env p)) =
        some (.file c) ∧
      fsGet (link env fs p true).fs p = some (.symlink (getRepoFilePath env p))) := by
  have habs : abspathP env p = p := abspathP_eq_self env p hn hh
  refine ⟨fun hL => by simp [link, habs, hL], fun hL hR => by simp [link, habs, hL, hR],
    fun hL hR hE => by simp [link, habs, hL, hR, hE], ?_, ?_⟩
  · intro hL hR hE
    rw [link]
    simp only [habs]
    rw [if_neg (by simp [hL]), if_neg (by simp [hR]), if_pos (by simp [hE]),
      if_pos trivial]
    rcases hb : backupFile env fs p with ⟨fs₁, r⟩
    cases r with
    | error e => simp
    | ok u =>
      cases u
      dsimp only
      cases hrem : osRemove env fs₁ p with
      | error e =>
        simp [List.isPrefixOf]
      | ok fs₂ =>
        dsimp only
        have h2 : fs₂ = fsDel fs₁ (abspathP env p) := osRemove_ok_eq env fs₁ fs₂ p hrem
        have hsym : osSymlink env fs₂ (getRepoFilePath env p) p =
            .ok (fsSet fs₂ (abspathP env p) (.symlink (getRepoFilePath env p))) := by
          refine osSymlink_of_none env fs₂ _ p ?_
          rw [h2, habs]
          exact fsGet_fsDel_self fs₁ p
        rw [hsym]
        simp [List.isPrefixOf]
  · intro c hL hR hfile hbpa hbd hDp hbp hbD
    have hE : pexists env fs p = true := by
      rw [pexists, resolveEntry_get_file fs (abspathP env p) c (by rw [habs]; exact hfile)]
      rfl
    rw [link]
    simp only [habs]
    rw [if_neg (by simp [hL]), if_neg (by simp [hR]), if_pos (by simp [hE]),
      if_pos trivial]
    have hmk : makedirs env fs (dirname (backupFilePath env p)) =
        .ok (if fsGet fs (abspathP env (dirname (backupFilePath env p))) = none
          then fsSet fs (abspathP env (dirname (backupFilePath env p))) .dir else fs) := by
      rcases hbd with hbd | hbd
      · unfold makedirs
        rw [hbd, if_pos rfl]
      · unfold makedirs
        rw [hbd, if_neg (by simp)]
    set D := abspathP env (dirname (backupFilePath env p)) with hD
    set bpa := abspathP env (backupFilePath env p) with hbpadef
    set fs₁ := (if fsGet fs D = none then fsSet fs D .dir else fs) with hfs₁
    have hfs₁p : fsGet fs₁ p = some (.file c) := by
      rw [hfs₁]
      split
      · rw [fsGet_fsSet_ne fs D p .dir (fun hc => hDp hc.symm)]
        exact hfile
      · exact hfile
    have hfs₁bpa : fsGet fs₁ bpa = none := by
      rw [hfs₁]
      split
      · rw [fsGet_fsSet_ne fs D bpa .dir hbD]
        exact hbpa
      · exact hbpa
    have hcopy : copy2 env fs₁ p (backupFilePath env p) =
        .ok (fsSet fs₁ bpa (.file c)) :=
      copy2_file env fs₁ p (backupFilePath env p) c
        (by rw [habs]; exact resolveEntry_get_file fs₁ p c hfs₁p) hfs₁bpa
    have hback : backupFile env fs p = (fsSet fs₁ bpa (.file c), .ok ()) := by
      rw [backupFile, hmk]
      dsimp only
      rw [hcopy]
    rw [hback]
    dsimp only
    set fs₂ := fsSet fs₁ bpa (.file c) with hfs₂
    have hfs₂p : fsGet fs₂ p = some (.file c) := by
      rw [hfs₂, fsGet_fsSet_ne fs₁ bpa p (.file c) (fun hc => hbp hc.symm)]
      exact hfs₁p
    have hrem : osRemove env fs₂ p = .ok (fsDel fs₂ p) := by
      have := osRemove_nondir env fs₂ p (.file c) (by rw [habs]; exact hfs₂p) (by simp)
      rwa [habs] at this
    rw [hrem]
    dsimp only
    have hsym : osSymlink env (fsDel fs₂ p) (getRepoFilePath env p) p =
        .ok (fsSet (fsDel fs₂ p) p (.symlink (getRepoFilePath env p))) := by
      have := osSymlink_of_none env (fsDel fs₂ p) (getRepoFilePath env p) p
        (by rw [habs]; exact fsGet_fsDel_self fs₂ p)
      rwa [habs] at this
    rw [hsym]
    dsimp only
    refine ⟨rfl, rfl, ?_, ?_⟩
    · rw [fsGet_fsSet_ne _ p bpa _ hbp]
      rw [fsGet_fsDel_ne fs₂ p bpa hbp]
      rw [hfs₂, fsGet_fsSet_self]
    · rw [fsGet_fsSet_self]

/-! ## Claim C9 -/

/-- C9: `add` and `link` are idempotent: for every path `p` (normalized
absolute) with `classify(p) == Linked`, `add(p)` and `link(p)` each return
success and change no filesystem state (and record no mutation step), so
calling each twice in a row leaves the state unchanged and returns
success both times. -/
theorem c9_add_link_idempotent (env : Env) (fs : FS) (p : Path) (f f₂ : Bool)
    (hn : normpath p = p) (hh : p.head? = some '/')
    (hL : isLinked env fs p = true) :
    add env fs p f = ⟨fs, [], .ok true⟩ ∧ link env fs p f = ⟨fs, [], .ok true⟩ ∧
    add env (add env fs p f).fs p f₂ = ⟨fs, [], .ok true⟩ ∧
    link env (link env fs p f).fs p f₂ = ⟨fs, [], .ok true⟩ := by
  have ha : abspathP env p = p := abspathP_eq_self env p hn hh
  have h1 : add env fs p f = ⟨fs, [], .ok true⟩ := by
    simp [add, hL]
  have h2 : link env fs p f = ⟨fs, [], .ok true⟩ := by
    simp [link, ha, hL]
  refine ⟨h1, h2, ?_, ?_⟩
  · rw [h1]; simp [add, hL]
  · rw [h2]; simp [link, ha, hL]

/-- Witness for C9 at a concrete linked state. -/
theorem c9_witness :
    normpath (pstr "/a") = pstr "/a" ∧ (pstr "/a").head? = some '/' ∧
    isLinked envH fsLinked (pstr "/a") = true ∧
    add envH fsLinked (pstr "/a") false = ⟨fsLinked, [], .ok true⟩ := by
  refine ⟨by decide, by decide, by decide, ?_⟩
  exact (c9_add_link_idempotent envH fsLinked (pstr "/a") false false (by decide)
    (by decide) (by decide)).1

/-! ## Claim C10 -/

/-- C10: for every (normalized absolute, placeholder-free) path `p` with
no filesystem entry whose repository copy exists, `link(p, force=false)`
succeeds, creates exactly the symlink at `p`, and performs no backup. -/
theorem c10_link_absent (env : Env) (fs : FS) (p : Path)
    (hn : normpath p = p) (hh : p.head? = some '/') (ht : noTok p = true)
    (hAbsent : fsGet fs p = none)
    (hRepo : existsInRepo env fs p = true) :
    link env fs p false =
      ⟨fsSet fs p (.symlink (getRepoFilePath env p)),
       [.linked (getRepoFilePath env p) p], .ok true⟩ := by
  have ha : abspathP env p = p := abspathP_eq_self env p hn hh
  have hu : unmaskHome env p = p := unmaskHome_eq_self env p hn ht
  have hil : islink env fs p = false := islink_false_of_get_none env fs p (by rw [ha]; exact hAbsent)
  have hL : isLinked env fs p = false := by
    simp [isLinked, hu, hil]
  have hpe : pexists env fs p = false :=
    pexists_false_of_get_none env fs p (by rw [ha]; exact hAbsent)
  simp [link, ha, hL, hRepo, hpe, osSymlink, hAbsent]

/-- Witness for C10 at a concrete state. -/
theorem c10_witness :
    fsGet fsRepoOnly (pstr "/a") = none ∧
    existsInRepo envH fsRepoOnly (pstr "/a") = true ∧
    link envH fsRepoOnly (pstr "/a") false =
      ⟨fsSet fsRepoOnly (pstr "/a") (.symlink (getRepoFilePath envH (pstr "/a"))),
       [.linked (getRepoFilePath envH (pstr "/a")) (pstr "/a")], .ok true⟩ := by
  refine ⟨by decide, by decide, ?_⟩
  exact c10_link_absent envH fsRepoOnly (pstr "/a") (by decide) (by decide) (by decide)
    (by decide) (by decide)

/-! ## Claim C3 -/

/-- Modelled from the spec (sections 3 and 4.2): `Linked` holds when the
(first unmasked) path is a symbolic link, its resolved target equals the
repository path, and a REGULAR FILE exists at the repository path.  This
is the comparison definition for the refinement claim C3; the source's
`__isLinked` checks mere existence instead of file-ness. -/
def linkedSpec (env : Env) (fs : FS) (p : Path) : Bool :=
  let q := unmaskHome env p
  islink env fs q && (realpath env fs q == getRepoFilePath env q) &&
    isfile env fs (getRepoFilePath env q)

/-- C3 (amended): `__isLinked p` holds iff the unmasked `p` is a symbolic
link whose resolved target equals its repository path and ANY filesystem
entry exists (in the `os.path.exists` sense) at that repository path —
not necessarily a regular file; it agrees with the spec's `Linked`
classification exactly when the repository path does not resolve to a
directory. -/
theorem c3_isLinked_characterization (env : Env) (fs : FS) (p : Path) :
    (isLinked env fs p = (islink env fs (unmaskHome env p) &&
      (realpath env fs (unmaskHome env p) == getRepoFilePath env (unmaskHome env p)) &&
      pexists env fs (getRepoFilePath env (unmaskHome env p)))) ∧
    (resolveEntry fs fuel (abspathP env (getRepoFilePath env (unmaskHome env p))) ≠
        some .dir →
      isLinked env fs p = linkedSpec env fs p) := by
  have hchar : isLinked env fs p = (islink env fs (unmaskHome env p) &&
      (realpath env fs (unmaskHome env p) == getRepoFilePath env (unmaskHome env p)) &&
      pexists env fs (getRepoFilePath env (unmaskHome env p))) := by
    rw [isLinked]
    cases h1 : islink env fs (unmaskHome env p) with
    | false =>
      rw [if_pos (by simp [h1])]
      simp [h1]
    | true =>
      rw [if_neg (by simp [h1])]
      by_cases h2 : realpath env fs (unmaskHome env p) =
          getRepoFilePath env (unmaskHome env p)
      · rw [if_neg (fun hc => hc h2)]
        cases h3 : pexists env fs (getRepoFilePath env (unmaskHome env p)) with
        | false =>
          rw [if_pos (by simp only [existsInRepo, h3]; simp)]
          simp [h1, h2, h3]
        | true =>
          rw [if_neg (by simp only [existsInRepo, h3]; simp)]
          simp [h1, h2, h3]
      · rw [if_pos h2]
        have h2f : (realpath env fs (unmaskHome env p) ==
            getRepoFilePath env (unmaskHome env p)) = false := by
          simp only [beq_eq_false_iff_ne, ne_eq]
          exact h2
        simp [h2f]
  refine ⟨hchar, fun hnd => ?_⟩
  rw [hchar, linkedSpec]
  have hagree : pexists env fs (getRepoFilePath env (unmaskHome env p)) =
      isfile env fs (getRepoFilePath env (unmaskHome env p)) := by
    rw [pexists, isfile]
    cases hr : resolveEntry fs fuel (abspathP env (getRepoFilePath env (unmaskHome env p))) with
    | none => simp
    | some e =>
      cases e with
      | file c => simp
      | dir => exact absurd hr hnd
      | symlink t =>
        have := (realpathAux_get_of_resolveEntry fs fuel _ _ hr).2 t
        exact absurd rfl this
  rw [hagree]

/-- Witness for C3 (amended) at a concrete linked state whose repository
entry is a regular file: the code's check and the spec's `Linked` agree. -/
theorem c3_witness :
    resolveEntry fsLinked fuel
      (abspathP envH (getRepoFilePath envH (unmaskHome envH (pstr "/a")))) ≠
      some .dir ∧
    isLinked envH fsLinked (pstr "/a") = linkedSpec envH fsLinked (pstr "/a") := by
  refine ⟨by decide, ?_⟩
  exact (c3_isLinked_characterization envH fsLinked (pstr "/a")).2 (by decide)

/-! ## Claim C7 -/

/-- C7 (amended): `rm(p)` raises `ConfixError` when `p` is Linked, and
when no entry exists at the repository path of `p` (the code's
`__existsInRepo` uses `os.path.exists`); when an entry exists there and it
is not a directory, `rm` removes exactly that entry, changes nothing
else, returns normally, and afterwards the repository copy no longer
exists.  (A directory at the repository path — which `os.path.exists`
conflates with a repository copy — makes `os.remove` crash with a
non-Confix `IsADirectoryError` and nothing is changed: the unamended
claim mispredicts that case.) -/
theorem c7_rm_contract (env : Env) (fs : FS) (p : Path) :
    (isLinked env fs p = true → rm env fs p =
      ⟨fs, [], .error (.confixError (String.mk p ++ " is still linked"))⟩) ∧
    (isLinked env fs p = false → existsInRepo env fs p = false → rm env fs p =
      ⟨fs, [], .error (.confixError (String.mk p ++ " does not exist in confix repo"))⟩) ∧
    (isLinked env fs p = false → existsInRepo env fs p = true →
      fsGet fs (abspathP env (getRepoFilePath env p)) ≠ some .dir →
      rm env fs p = ⟨fsDel fs (abspathP env (getRepoFilePath env p)),
        [.removed (getRepoFilePath env p)], .ok ()⟩ ∧
      existsInRepo env (fsDel fs (abspathP env (getRepoFilePath env p))) p = false) := by
  refine ⟨fun hL => by simp [rm, hL], fun hL hR => by simp [rm, hL, hR], ?_⟩
  intro hL hR hnd
  have h1 : pexists env fs (getRepoFilePath env p) = true := hR
  rw [pexists, Option.isSome_iff_exists] at h1
  obtain ⟨e, he⟩ := h1
  have hget := fsGet_isSome_of_resolveEntry fs fuel _ e he
  rw [Option.isSome_iff_exists] at hget
  obtain ⟨e₂, he₂⟩ := hget
  have hrm : osRemove env fs (getRepoFilePath env p) =
      .ok (fsDel fs (abspathP env (getRepoFilePath env p))) := by
    unfold osRemove
    rw [he₂]
    cases e₂ with
    | dir => exact absurd he₂ hnd
    | file c => rfl
    | symlink t => rfl
  refine ⟨by simp [rm, hL, hR, hrm], ?_⟩
  rw [existsInRepo, pexists,
    resolveEntry_of_get_none _ _ (fsGet_fsDel_self fs _) fuel]
  rfl

/-- `/a` is a plain file with a (different) repository copy present. -/
def fsPlainTracked : FS := [(pstr "/a", .file "x"), (pstr "/r/a", .file "c")]

/-- Witness for C4 at a concrete plain-file state: the full force
sequence runs — backup holding the old content, then removal, then the
symlink. -/
theorem c4_witness :
    isLinked envH fsPlainTracked (pstr "/a") = false ∧
    existsInRepo envH fsPlainTracked (pstr "/a") = true ∧
    fsGet fsPlainTracked (pstr "/a") = some (.file "x") ∧
    (link envH fsPlainTracked (pstr "/a") true).res = .ok true ∧
    (link envH fsPlainTracked (pstr "/a") true).tr =
      [.backedUp (pstr "/a"), .removed (pstr "/a"),
        .linked (getRepoFilePath envH (pstr "/a")) (pstr "/a")] ∧
    fsGet (link envH fsPlainTracked (pstr "/a") true).fs
      (abspathP envH (backupFilePath envH (pstr "/a"))) = some (.file "x") := by
  refine ⟨by decide, by decide, by decide, ?_⟩
  have h := (c4_link_contract envH fsPlainTracked (pstr "/a") true (by decide)
    (by decide)).2.2.2.2 "x" (by decide) (by decide) (by decide) (by decide)
    (by decide) (by decide) (by decide) (by decide)
  exact ⟨h.1, h.2.1, h.2.2.1⟩

/-- Witness for C7 (amended) at a concrete state: `/a` unlinked with its
repository copy a regular file; `rm` removes exactly that entry. -/
theorem c7_witness :
    isLinked envH fsPlainTracked (pstr "/a") = false ∧
    existsInRepo envH fsPlainTracked (pstr "/a") = true ∧
    rm envH fsPlainTracked (pstr "/a") =
      ⟨fsDel fsPlainTracked (abspathP envH (getRepoFilePath envH (pstr "/a"))),
        [.removed (getRepoFilePath envH (pstr "/a"))], .ok ()⟩ ∧
    existsInRepo envH (rm envH fsPlainTracked (pstr "/a")).fs (pstr "/a") = false := by
  refine ⟨by decide, by decide, ?_⟩
  have h := (c7_rm_contract envH fsPlainTracked (pstr "/a")).2.2 (by decide)
    (by decide) (by decide)
  refine ⟨h.1, ?_⟩
  rw [h.1]
  exact h.2

/-! ## Claim C5 -/

/-- C5 (amended): for every normalized absolute path `p` that is NOT
already Linked (the unamended claim overlooks that `add` on a Linked
symlink — whose repository copy necessarily exists — is a successful
no-op): if `p` is nonexistent, or resolves to a directory, or is a
symlink without `force`, or its repository copy already exists without
`force`, then `add(p, force)` raises `ConfixError` and leaves the
filesystem unmodified (no mutation step is recorded). -/
theorem c5_add_safety (env : Env) (fs : FS) (p : Path) (force : Bool)
    (hn : normpath p = p) (hh : p.head? = some '/')
    (hNL : isLinked env fs p = false)
    (hbad : pexists env fs p = false ∨
      resolveEntry fs fuel p = some .dir ∨
      (islink env fs p = true ∧ force = false) ∨
      (pexists env fs (getRepoFilePath env p) = true ∧ force = false)) :
    (add env fs p force).fs = fs ∧ (add env fs p force).tr = [] ∧
    ∃ m, (add env fs p force).res = .error (.confixError m) := by
  have habs : abspathP env p = p := abspathP_eq_self env p hn hh
  simp only [add]
  rw [if_neg (by simp [hNL])]
  by_cases h1 : pexists env fs p = true
  · rw [if_neg (by simp [h1])]
    by_cases h2 : isfile env fs p = true
    · rw [if_neg (by simp [h2])]
      by_cases h3 : pexists env fs (getRepoFilePath env p) = true ∧ force = false
      · rw [if_pos (by refine ⟨h3.1, ?_⟩; simp [h3.2])]
        exact ⟨rfl, rfl, _, rfl⟩
      · rw [if_neg (by
          intro hc
          exact h3 ⟨hc.1, by simpa using hc.2⟩)]
        have h4 : islink env fs p = true ∧ force = false := by
          rcases hbad with hb | hb | hb | hb
          · exact absurd h1 (by simp [hb])
          · exfalso
            have hf : isfile env fs p = false := by
              simp only [isfile, habs, hb]
            exact absurd h2 (by simp [hf])
          · exact hb
          · exact absurd hb h3
        rw [if_pos (by refine ⟨h4.1, ?_⟩; simp [h4.2])]
        exact ⟨rfl, rfl, _, rfl⟩
    · rw [if_pos (by simp [h2])]
      exact ⟨rfl, rfl, _, rfl⟩
  · rw [if_pos (by simp [h1])]
    exact ⟨rfl, rfl, _, rfl⟩

/-- Witness for C5 (amended): `add` on a nonexistent path raises
`ConfixError` and changes nothing. -/
theorem c5_witness :
    isLinked envH ([] : FS) (pstr "/a") = false ∧
    pexists envH ([] : FS) (pstr "/a") = false ∧
    (add envH ([] : FS) (pstr "/a") false).fs = [] ∧
    (∃ m, (add envH ([] : FS) (pstr "/a") false).res = .error (.confixError m)) := by
  refine ⟨by decide, by decide, ?_⟩
  have h := c5_add_safety envH ([] : FS) (pstr "/a") false (by decide) (by decide)
    (by decide) (Or.inl (by decide))
  exact ⟨h.1, h.2.2⟩

/-! ## Claim C6 -/

theorem isLinked_parts (env : Env) (fs : FS) (p : Path) (h : isLinked env fs p = true) :
    islink env fs (unmaskHome env p) = true ∧
    realpath env fs (unmaskHome env p) = getRepoFilePath env (unmaskHome env p) ∧
    existsInRepo env fs (unmaskHome env p) = true := by
  rw [isLinked] at h
  split_ifs at h with h1 h2 h3
  any_goals simp at h
  exact ⟨by simpa using h1, not_ne_iff.mp h2, by simpa using h3⟩

/-- A path whose repository path is itself cannot be Linked: being a
symlink, its `realpath` resolution would have to end at a non-symlink
entry at the very same key. -/
theorem isLinked_ne_repoPath (env : Env) (fs : FS) (p : Path)
    (hu : unmaskHome env p = p) (habs : abspathP env p = p)
    (h : isLinked env fs p = true) : getRepoFilePath env p ≠ p := by
  intro hc
  obtain ⟨h1, h2, h3⟩ := isLinked_parts env fs p h
  rw [hu] at h1 h2 h3
  rw [existsInRepo, pexists, hc, habs, Option.isSome_iff_exists] at h3
  obtain ⟨e, he⟩ := h3
  obtain ⟨hge, hnsym⟩ := realpathAux_get_of_resolveEntry fs fuel p e he
  rw [realpath, habs] at h2
  rw [h2, hc] at hge
  rw [islink, habs, hge] at h1
  cases e with
  | symlink t => exact absurd rfl (hnsym t)
  | file c => simp at h1
  | dir => simp at h1

/-- C6 (amended): for a well-formed environment and a normalized absolute
placeholder-free path `p`, `unlink(p)` raises `ConfixError` unless
`classify(p) == Linked` (rejecting symlinks pointing elsewhere, which
`__isLinked` reports as not linked); the entry at the repository path of
`p` is never modified; and on success the symlink is removed and the
repository content is copied back to `p`.  (The placeholder-free
condition matters: for an argument containing `/$HOME`, the path checked
by `__isLinked` differs from the path `os.unlink` acts on, and with
repository root `/` the unlink can destroy the repository copy itself —
the unamended "in all cases never modifies the repository copy" fails
there.) -/
theorem c6_unlink_contract (env : Env) (fs : FS) (p : Path)
    (hWF : envWF env = true) (hg : goodPath env p = true) (hpr : p ≠ ['/']) :
    (isLinked env fs p = false → unlink env fs p =
      ⟨fs, [], .error (.confixError (String.mk p ++ " is not linked"))⟩) ∧
    (fsGet (unlink env fs p).fs (abspathP env (getRepoFilePath env p)) =
      fsGet fs (abspathP env (getRepoFilePath env p))) ∧
    ((unlink env fs p).res = .ok () → ∃ c,
      (unlink env fs p).fs = fsSet (fsDel fs p) p (.file c) ∧
      resolveEntry (fsDel fs p) fuel (abspathP env (getRepoFilePath env p)) =
        some (.file c)) := by
  obtain ⟨hna, htok, _⟩ := goodPath_parts env p hg
  obtain ⟨hn, hh, _⟩ := normAbs_parts p hna
  have habs : abspathP env p = p := abspathP_eq_self env p hn hh
  have hu : unmaskHome env p = p := unmaskHome_eq_self env p hn htok
  obtain ⟨X, _, _, _, _, hrfne, hrfnorm⟩ := getRepoFilePath_canon env p hWF hg hpr
  obtain ⟨hrfn, hrfh, _⟩ := normAbs_parts _ hrfnorm
  have hK : abspathP env (getRepoFilePath env p) = getRepoFilePath env p :=
    abspathP_eq_self env _ hrfn hrfh
  cases hL : isLinked env fs p with
  | false =>
    have hres : unlink env fs p =
        ⟨fs, [], .error (.confixError (String.mk p ++ " is not linked"))⟩ := by
      simp [unlink, hL]
    refine ⟨fun _ => hres, by rw [hres], ?_⟩
    rw [hres]
    intro hc
    exact absurd hc (by simp)
  | true =>
    obtain ⟨h1, _, _⟩ := isLinked_parts env fs p hL
    rw [hu] at h1
    have hsl : ∃ t, fsGet fs p = some (.symlink t) := by
      rw [islink, habs] at h1
      cases hg2 : fsGet fs p with
      | none => rw [hg2] at h1; simp at h1
      | some e =>
        cases e with
        | symlink t => exact ⟨t, rfl⟩
        | file c => rw [hg2] at h1; simp at h1
        | dir => rw [hg2] at h1; simp at h1
    obtain ⟨t, hslt⟩ := hsl
    have hrem : osRemove env fs p = .ok (fsDel fs p) := by
      have h := osRemove_nondir env fs p (.symlink t) (by rw [habs]; exact hslt)
        (by simp)
      rwa [habs] at h
    have hne : getRepoFilePath env p ≠ p := hrfne
    rw [unlink, if_neg (by simp [hL]), hrem]
    dsimp only
    cases hre : resolveEntry (fsDel fs p) fuel
        (abspathP env (getRepoFilePath env p)) with
    | none =>
      have hcopy : copy2 env (fsDel fs p) (getRepoFilePath env p) p =
          .error (.ioError "FileNotFoundError") := by
        unfold copy2
        rw [hre]
      rw [hcopy]
      refine ⟨fun hc => absurd hc (by simp [hL]), ?_, ?_⟩
      · exact fsGet_fsDel_ne fs p _ (by rw [hK]; exact hne)
      · intro hc
        exact absurd hc (by simp)
    | some e =>
      cases e with
      | file c =>
        have hcopy : copy2 env (fsDel fs p) (getRepoFilePath env p) p =
            .ok (fsSet (fsDel fs p) p (.file c)) := by
          have h := copy2_file env (fsDel fs p) (getRepoFilePath env p) p c hre
            (by rw [habs]; exact fsGet_fsDel_self fs p)
          rwa [habs] at h
        rw [hcopy]
        refine ⟨fun hc => absurd hc (by simp [hL]), ?_, ?_⟩
        · rw [fsGet_fsSet_ne _ p _ _ (by rw [hK]; exact hne)]
          exact fsGet_fsDel_ne fs p _ (by rw [hK]; exact hne)
        · intro _
          exact ⟨c, rfl, rfl⟩
      | dir =>
        have hcopy : copy2 env (fsDel fs p) (getRepoFilePath env p) p =
            .error (.ioError "IsADirectoryError") := by
          unfold copy2
          rw [hre]
        rw [hcopy]
        refine ⟨fun hc => absurd hc (by simp [hL]), ?_, ?_⟩
        · exact fsGet_fsDel_ne fs p _ (by rw [hK]; exact hne)
        · intro hc
          exact absurd hc (by simp)
      | symlink t₂ =>
        have hcopy : copy2 env (fsDel fs p) (getRepoFilePath env p) p =
            .error (.ioError "FileNotFoundError") := by
          unfold copy2
          rw [hre]
        rw [hcopy]
        refine ⟨fun hc => absurd hc (by simp [hL]), ?_, ?_⟩
        · exact fsGet_fsDel_ne fs p _ (by rw [hK]; exact hne)
        · intro hc
          exact absurd hc (by simp)

/-- Witness for C6 (amended) at a concrete linked state: `unlink`
succeeds, the repository entry is untouched, and `p` holds the copied
content. -/
theorem c6_witness :
    envWF envH = true ∧ goodPath envH (pstr "/a") = true ∧
    isLinked envH fsLinked (pstr "/a") = true ∧
    fsGet (unlink envH fsLinked (pstr "/a")).fs
      (abspathP envH (getRepoFilePath envH (pstr "/a"))) =
      fsGet fsLinked (abspathP envH (getRepoFilePath envH (pstr "/a"))) ∧
    (unlink envH fsLinked (pstr "/a")).res = .ok () := by
  refine ⟨by decide, by decide, by decide, ?_, by decide⟩
  exact (c6_unlink_contract envH fsLinked (pstr "/a") (by decide) (by decide)
    (by decide)).2.1

/-! ## Claim C8 -/

/-- C8 (amended): `list()` returns one pair per regular file under the
repository root; the first component is the full repository path with the
first `len(repoDir)` characters stripped — the home placeholder is NOT
substituted back (`fromRepoPath` would also unmask) — and the second
component is `__isLinked` of that stripped string, which unmasks
internally and therefore reflects the original path's link state. -/
theorem c8_list_characterization (env : Env) (fs : FS) :
    (listFiles env fs).length = (walkFiles env fs).length ∧
    (∀ pr ∈ listFiles env fs, ∃ k ∈ walkFiles env fs,
      pr.1 = k.drop env.repoDir.length ∧ pr.2 = isLinked env fs pr.1) ∧
    (∀ k ∈ walkFiles env fs,
      (k.drop env.repoDir.length,
        isLinked env fs (k.drop env.repoDir.length)) ∈ listFiles env fs) ∧
    (∀ k, k ∈ walkFiles env fs ↔
      (∃ c, (k, Entry.file c) ∈ fs) ∧
        (env.repoDir ++ ['/']).isPrefixOf k = true) := by
  refine ⟨List.length_map _ _, ?_, ?_, ?_⟩
  · intro pr hpr
    obtain ⟨k, hk, hpr2⟩ := List.mem_map.mp hpr
    exact ⟨k, hk, by rw [← hpr2], by rw [← hpr2]⟩
  · intro k hk
    exact List.mem_map.mpr ⟨k, hk, rfl⟩
  · intro k
    constructor
    · intro hk
      obtain ⟨pe, hpe, hf⟩ := List.mem_filterMap.mp hk
      rcases pe with ⟨k₀, e⟩
      cases e with
      | file c =>
        simp only [walkFiles] at hf
        by_cases hpre : (env.repoDir ++ ['/']).isPrefixOf k₀ = true
        · rw [if_pos hpre] at hf
          injection hf with hf
          subst hf
          exact ⟨⟨c, hpe⟩, hpre⟩
        · rw [if_neg hpre] at hf
          exact absurd hf (by simp)
      | dir => exact absurd hf (by simp)
      | symlink t => exact absurd hf (by simp)
    · rintro ⟨⟨c, hc⟩, hpre⟩
      refine List.mem_filterMap.mpr ⟨(k, Entry.file c), hc, ?_⟩
      simp only
      rw [if_pos hpre]

/-- Witness for C8 (amended) at a concrete state: the pair for the
tracked home file carries the still-masked stripped path. -/
theorem c8_witness :
    (pstr "/$HOME/x", true) ∈ listFiles envH fsRepoHome ∧
    ∃ k ∈ walkFiles envH fsRepoHome,
      (pstr "/$HOME/x", true).1 = k.drop envH.repoDir.length ∧
      (pstr "/$HOME/x", true).2 = isLinked envH fsRepoHome (pstr "/$HOME/x", true).1 := by
  refine ⟨by decide, ?_⟩
  exact (c8_list_characterization envH fsRepoHome).2.1 (pstr "/$HOME/x", true)
    (by decide)

/-! ## Claim C2 -/

/-- `p` is not lost: it has a filesystem entry or a repository entry. -/
def alive (env : Env) (fs : FS) (p : Path) : Bool :=
  (fsGet fs (abspathP env p)).isSome || (fsGet fs (getRepoFilePath env p)).isSome

/-- Every key present in `fs` is still present in `fs'`. -/
def fsExtends (fs fs' : FS) : Prop :=
  ∀ x, (fsGet fs x).isSome → (fsGet fs' x).isSome

theorem fsExtends_refl (fs : FS) : fsExtends fs fs := fun _ h => h

theorem fsExtends_trans {fs₁ fs₂ fs₃ : FS}
    (h1 : fsExtends fs₁ fs₂) (h2 : fsExtends fs₂ fs₃) : fsExtends fs₁ fs₃ :=
  fun x h => h2 x (h1 x h)

theorem fsExtends_set (fs : FS) (k : Path) (e : Entry) :
    fsExtends fs (fsSet fs k e) :=
  fun x h => fsGet_isSome_fsSet fs k x e h

theorem fsExtends_set_del (fs : FS) (k : Path) (e : Entry) :
    fsExtends fs (fsSet (fsDel fs k) k e) := by
  intro x h
  by_cases hx : x = k
  · rw [hx, fsGet_fsSet_self]
    rfl
  · rw [fsGet_fsSet_ne _ k x e hx, fsGet_fsDel_ne fs k x hx]
    exact h

theorem alive_mono (env : Env) (fs fs' : FS) (p : Path)
    (hx : fsExtends fs fs') (h : alive env fs p = true) : alive env fs' p = true := by
  rw [alive, Bool.or_eq_true] at h ⊢
  rcases h with h | h
  · exact Or.inl (hx _ h)
  · exact Or.inr (hx _ h)

theorem makedirs_ok_extends (env : Env) (fs fs' : FS) (d : Path)
    (h : makedirs env fs d = .ok fs') : fsExtends fs fs' := by
  unfold makedirs at h
  cases hg : fsGet fs (abspathP env d) with
  | none =>
    rw [hg] at h
    injection h with h
    rw [← h]
    exact fsExtends_set fs _ .dir
  | some e =>
    rw [hg] at h
    cases e with
    | dir => injection h with h; rw [← h]; exact fsExtends_refl fs
    | file c => exact absurd h (by simp)
    | symlink t => exact absurd h (by simp)

theorem copy2_ok_extends (env : Env) (fs fs' : FS) (s d : Path)
    (h : copy2 env fs s d = .ok fs') : fsExtends fs fs' := by
  unfold copy2 at h
  cases hr : resolveEntry fs fuel (abspathP env s) with
  | none => rw [hr] at h; exact absurd h (by simp)
  | some e =>
    rw [hr] at h
    cases e with
    | dir => exact absurd h (by simp)
    | symlink t => exact absurd h (by simp)
    | file c =>
      simp only at h
      cases hg : fsGet fs (realpathAux fs fuel (abspathP env d)) with
      | none =>
        rw [hg] at h
        injection h with h
        rw [← h]
        exact fsExtends_set fs _ _
      | some e₂ =>
        rw [hg] at h
        cases e₂ with
        | dir => exact absurd h (by simp)
        | file c₂ => injection h with h; rw [← h]; exact fsExtends_set fs _ _
        | symlink t₂ => injection h with h; rw [← h]; exact fsExtends_set fs _ _

theorem backupFile_extends (env : Env) (fs : FS) (x : Path) :
    fsExtends fs (backupFile env fs x).1 := by
  rw [backupFile]
  cases hmk : makedirs env fs (dirname (backupFilePath env x)) with
  | error e => exact fsExtends_refl fs
  | ok fs₁ =>
    dsimp only
    have h1 := makedirs_ok_extends env fs fs₁ _ hmk
    cases hcp : copy2 env fs₁ x (backupFilePath env x) with
    | error e => exact h1
    | ok fs₂ =>
      dsimp only
      exact fsExtends_trans h1 (copy2_ok_extends env fs₁ fs₂ _ _ hcp)

theorem osSymlink_ok_eq (env : Env) (fs fs' : FS) (t k : Path)
    (h : osSymlink env fs t k = .ok fs') :
    fs' = fsSet fs (abspathP env k) (.symlink t) := by
  unfold osSymlink at h
  cases hg : fsGet fs (abspathP env k) with
  | none => rw [hg] at h; injection h with h; exact h.symm
  | some e => rw [hg] at h; exact absurd h (by simp)

/-- `link` never removes a key without putting an entry back at it. -/
theorem link_extends (env : Env) (fs : FS) (q : Path) (f : Bool) :
    fsExtends fs (link env fs q f).fs := by
  rw [link]
  by_cases h1 : isLinked env fs (abspathP env q) = true
  · rw [if_pos h1]
    exact fsExtends_refl fs
  · rw [if_neg h1]
    by_cases h2 : existsInRepo env fs (abspathP env q) = true
    · rw [if_neg (by simp [h2])]
      by_cases h3 : pexists env fs (abspathP env q) = true
      · rw [if_pos h3]
        by_cases h4 : f = true
        · rw [if_pos h4]
          rcases hb : backupFile env fs (abspathP env q) with ⟨fs₁, r⟩
          have hext1 : fsExtends fs fs₁ := by
            have := backupFile_extends env fs (abspathP env q)
            rwa [hb] at this
          cases r with
          | error e => exact hext1
          | ok u =>
            cases u
            dsimp only
            cases hrem : osRemove env fs₁ (abspathP env q) with
            | error e => exact hext1
            | ok fs₂ =>
              dsimp only
              have h5 : fs₂ = fsDel fs₁ (abspathP env (abspathP env q)) :=
                osRemove_ok_eq env fs₁ fs₂ _ hrem
              have hsym : osSymlink env fs₂ (getRepoFilePath env (abspathP env q))
                  (abspathP env q) = .ok (fsSet fs₂ (abspathP env (abspathP env q))
                    (.symlink (getRepoFilePath env (abspathP env q)))) := by
                refine osSymlink_of_none env fs₂ _ _ ?_
                rw [h5]
                exact fsGet_fsDel_self fs₁ _
              rw [hsym]
              dsimp only
              rw [h5]
              exact fsExtends_trans hext1 (fsExtends_set_del fs₁ _ _)
        · rw [if_neg h4]
          exact fsExtends_refl fs
      · rw [if_neg h3]
        cases hsym : osSymlink env fs (getRepoFilePath env (abspathP env q))
            (abspathP env q) with
        | error e => exact fsExtends_refl fs
        | ok fs₁ =>
          dsimp only
          rw [osSymlink_ok_eq env fs fs₁ _ _ hsym]
          exact fsExtends_set fs _ _
    · rw [if_pos (by simp [h2])]
      exact fsExtends_refl fs

/-- `add` never removes a key without putting an entry back at it. -/
theorem add_extends (env : Env) (fs : FS) (q : Path) (f : Bool) :
    fsExtends fs (add env fs q f).fs := by
  rw [add]
  split_ifs with h1 h2 h3 h4 h5
  any_goals exact fsExtends_refl fs
  · cases hmk : makedirs env fs (dirname (getRepoFilePath env q)) with
    | error e => exact fsExtends_refl fs
    | ok fs₁ =>
      dsimp only
      have hext1 := makedirs_ok_extends env fs fs₁ _ hmk
      cases hcp : copy2 env fs₁ q (getRepoFilePath env q) with
      | error e => exact hext1
      | ok fs₂ =>
        dsimp only
        exact fsExtends_trans hext1
          (fsExtends_trans (copy2_ok_extends env fs₁ fs₂ _ _ hcp)
            (link_extends env fs₂ q true))

/-- C2 (amended): for a well-formed environment and a normalized
absolute, placeholder-free operation argument `q` (with the home prefix,
if any, on a component boundary): `add` and `link` never lose ANY path —
every filesystem or repository entry present before is present after, on
every success or failure branch; `merge` never touches the filesystem;
`unlink(q)` keeps `q` alive on every branch; and `rm(q)` keeps `q` alive
whenever `q` has a filesystem entry.  The deliberate exception — the
counterexample to the unamended claim — is `rm(q)` on a `q` absent from
the filesystem, whose very purpose is to delete the last (repository)
copy. -/
theorem c2_no_data_loss (env : Env) (fs : FS) (q : Path) (f : Bool)
    (hWF : envWF env = true) (hg : goodPath env q = true) (hpr : q ≠ ['/']) :
    (∀ p, alive env fs p = true → alive env (add env fs q f).fs p = true) ∧
    (∀ p, alive env fs p = true → alive env (link env fs q f).fs p = true) ∧
    ((merge env fs q).fs = fs) ∧
    (alive env fs q = true → alive env (unlink env fs q).fs q = true) ∧
    ((fsGet fs (abspathP env q)).isSome = true →
      alive env (rm env fs q).fs q = true) := by
  obtain ⟨hna, htok, _⟩ := goodPath_parts env q hg
  obtain ⟨hn, hh, _⟩ := normAbs_parts q hna
  have habs : abspathP env q = q := abspathP_eq_self env q hn hh
  have hu : unmaskHome env q = q := unmaskHome_eq_self env q hn htok
  obtain ⟨X, _, _, _, _, hrfne, hrfnorm⟩ := getRepoFilePath_canon env q hWF hg hpr
  obtain ⟨hrfn, hrfh, _⟩ := normAbs_parts _ hrfnorm
  have hK : abspathP env (getRepoFilePath env q) = getRepoFilePath env q :=
    abspathP_eq_self env _ hrfn hrfh
  refine ⟨fun p hp => alive_mono env fs _ p (add_extends env fs q f) hp,
    fun p hp => alive_mono env fs _ p (link_extends env fs q f) hp,
    by unfold merge; split_ifs <;> rfl, ?_, ?_⟩
  · intro halive
    cases hL : isLinked env fs q with
    | false =>
      have hres : (unlink env fs q).fs = fs := by simp [unlink, hL]
      rw [hres]
      exact halive
    | true =>
      obtain ⟨h1, _, h3⟩ := isLinked_parts env fs q hL
      rw [hu] at h1 h3
      have hsl : ∃ t, fsGet fs q = some (.symlink t) := by
        rw [islink, habs] at h1
        cases hg2 : fsGet fs q with
        | none => rw [hg2] at h1; simp at h1
        | some e =>
          cases e with
          | symlink t => exact ⟨t, rfl⟩
          | file c => rw [hg2] at h1; simp at h1
          | dir => rw [hg2] at h1; simp at h1
      obtain ⟨t, hslt⟩ := hsl
      have hrem : osRemove env fs q = .ok (fsDel fs q) := by
        have h := osRemove_nondir env fs q (.symlink t) (by rw [habs]; exact hslt)
          (by simp)
        rwa [habs] at h
      have hrfget : (fsGet fs (getRepoFilePath env q)).isSome := by
        rw [existsInRepo, pexists, hK, Option.isSome_iff_exists] at h3
        obtain ⟨e, he⟩ := h3
        exact fsGet_isSome_of_resolveEntry fs fuel _ e he
      rw [unlink, if_neg (by simp [hL]), hrem]
      dsimp only
      cases hcp : copy2 env (fsDel fs q) (getRepoFilePath env q) q with
      | error e =>
        dsimp only
        rw [alive, Bool.or_eq_true]
        right
        rw [fsGet_fsDel_ne fs q _ hrfne]
        exact hrfget
      | ok fs₂ =>
        dsimp only
        have hext := copy2_ok_extends env (fsDel fs q) fs₂ _ _ hcp
        rw [alive, Bool.or_eq_true]
        right
        apply hext
        rw [fsGet_fsDel_ne fs q _ hrfne]
        exact hrfget
  · intro hA
    cases hL : isLinked env fs q with
    | true =>
      have hres : (rm env fs q).fs = fs := by simp [rm, hL]
      rw [hres, alive, Bool.or_eq_true]
      exact Or.inl hA
    | false =>
      cases hR : existsInRepo env fs q with
      | false =>
        have hres : (rm env fs q).fs = fs := by simp [rm, hL, hR]
        rw [hres, alive, Bool.or_eq_true]
        exact Or.inl hA
      | true =>
        rw [rm, if_neg (by simp [hL]), if_neg (by simp [hR])]
        cases hrm : osRemove env fs (getRepoFilePath env q) with
        | error e =>
          dsimp only
          rw [alive, Bool.or_eq_true]
          exact Or.inl hA
        | ok fs₂ =>
          dsimp only
          have h5 : fs₂ = fsDel fs (abspathP env (getRepoFilePath env q)) :=
            osRemove_ok_eq env fs fs₂ _ hrm
          rw [alive, Bool.or_eq_true]
          left
          rw [h5, hK, habs, fsGet_fsDel_ne fs _ q (fun hc => hrfne hc.symm)]
          rw [habs] at hA
          exact hA

/-- Witness for C2 (amended) at a concrete state: `unlink` keeps the
linked path alive, and `rm` keeps a present path alive. -/
theorem c2_witness :
    envWF envH = true ∧ goodPath envH (pstr "/a") = true ∧
    alive envH fsLinked (pstr "/a") = true ∧
    alive envH (unlink envH fsLinked (pstr "/a")).fs (pstr "/a") = true ∧
    alive envH (rm envH fsPlainTracked (pstr "/a")).fs (pstr "/a") = true := by
  refine ⟨by decide, by decide, by decide, ?_, ?_⟩
  · exact (c2_no_data_loss envH fsLinked (pstr "/a") false (by decide) (by decide)
      (by decide)).2.2.2.1 (by decide)
  · exact (c2_no_data_loss envH fsPlainTracked (pstr "/a") false (by decide)
      (by decide) (by decide)).2.2.2.2 (by decide)

/-! ## Counterexamples -/

/-- C1 counterexample: with home `/home/u`, the path `/home/user2/f`
starts with the home string without a component boundary; masking cuts
mid-component and decoding yields `/home/u/ser2/f`, not
`normalize("/home/user2/f")`. -/
theorem c1_counterexample :
    fromRepoPath envH (toRepoPath envH (pstr "/home/user2/f")) = pstr "/home/u/ser2/f" ∧
    fromRepoPath envH (toRepoPath envH (pstr "/home/user2/f")) ≠
      normpath (pstr "/home/user2/f") := by
  exact ⟨by decide, by decide⟩

/-- C2 counterexample: `rm("/a")` when `/a` is absent from the filesystem
but has a repository copy succeeds and deletes that copy, ending with both
the filesystem entry and the repository copy of `/a` missing. -/
theorem c2_counterexample :
    existsInRepo envH fsRepoOnly (pstr "/a") = true ∧
    fsGet fsRepoOnly (pstr "/a") = none ∧
    (rm envH fsRepoOnly (pstr "/a")).res = .ok () ∧
    fsGet (rm envH fsRepoOnly (pstr "/a")).fs (abspathP envH (pstr "/a")) = none ∧
    existsInRepo envH (rm envH fsRepoOnly (pstr "/a")).fs (pstr "/a") = false ∧
    pexists envH (rm envH fsRepoOnly (pstr "/a")).fs (pstr "/a") = false := by
  exact ⟨by decide, by decide, by decide, by decide, by decide, by decide⟩

/-- C3 counterexample: `/a` is a symlink whose resolved target equals its
repository path, but a directory — not a regular file — sits at the
repository path; `__isLinked` still reports linked, because line 74 uses
`os.path.exists`, not `os.path.isfile`. -/
theorem c3_counterexample :
    isLinked envH fsRepoDirAt (pstr "/a") = true ∧
    islink envH fsRepoDirAt (pstr "/a") = true ∧
    realpath envH fsRepoDirAt (pstr "/a") = getRepoFilePath envH (pstr "/a") ∧
    isfile envH fsRepoDirAt (getRepoFilePath envH (pstr "/a")) = false := by
  exact ⟨by decide, by decide, by decide, by decide⟩

/-- C5 counterexample: `/a` is a symlink (and its repository copy already
exists), `force` is false, yet `add("/a")` returns success with no
`ConfixError` — the already-Linked check precedes every rejection. -/
theorem c5_counterexample :
    islink envH fsLinked (pstr "/a") = true ∧
    pexists envH fsLinked (getRepoFilePath envH (pstr "/a")) = true ∧
    add envH fsLinked (pstr "/a") false = ⟨fsLinked, [], .ok true⟩ := by
  exact ⟨by decide, by decide, by decide⟩

/-- C6 counterexample: with the repository root set to `/` and the
argument `/$HOME/x` (whose unmasked form `/h/x` is Linked), `unlink`
deletes the entry at `/$HOME/x` — which is exactly the repository path of
the argument — so the repository copy is modified (destroyed), and no
`ConfixError` is raised. -/
theorem c6_counterexample :
    isLinked envRoot fsMasked (pstr "/$HOME/x") = true ∧
    getRepoFilePath envRoot (pstr "/$HOME/x") = pstr "/$HOME/x" ∧
    fsGet fsMasked (getRepoFilePath envRoot (pstr "/$HOME/x")) = some (.file "c") ∧
    fsGet (unlink envRoot fsMasked (pstr "/$HOME/x")).fs
      (getRepoFilePath envRoot (pstr "/$HOME/x")) = none := by
  exact ⟨by decide, by decide, by decide, by decide⟩

/-- C7 counterexample: `/a` is not Linked and `os.path.exists` is true of
its repository path (a directory sits there, e.g. because a deeper path is
tracked), so `rm("/a")` passes both guards and then crashes with a
non-Confix `IsADirectoryError`; nothing is removed. -/
theorem c7_counterexample :
    isLinked envH fsRepoDirOnly (pstr "/a") = false ∧
    existsInRepo envH fsRepoDirOnly (pstr "/a") = true ∧
    rm envH fsRepoDirOnly (pstr "/a") =
      ⟨fsRepoDirOnly, [], .error (.ioError "IsADirectoryError")⟩ ∧
    existsInRepo envH (rm envH fsRepoDirOnly (pstr "/a")).fs (pstr "/a") = true := by
  exact ⟨by decide, by decide, by decide, by decide⟩

/-- C8 counterexample: for a tracked home file the repository walk yields
`/r/$HOME/x`; `list` returns first component `/$HOME/x` — the repo path
with the prefix stripped, placeholder intact — not the original absolute
path `/home/u/x` that `fromRepoPath` (unmasking) would give. -/
theorem c8_counterexample :
    listFiles envH fsRepoHome = [(pstr "/$HOME/x", true)] ∧
    fromRepoPath envH (pstr "/r/$HOME/x") = pstr "/home/u/x" ∧
    pstr "/$HOME/x" ≠ pstr "/home/u/x" := by
  exact ⟨by decide, by decide, by decide⟩

end Confix
